import Mathlib

/-!
Verification development for the mind-map application in `script.js`.

The embedding has three layers, each translated from the source:

* Command layer (`MindMap` namespace): the tree store, history manager and
  the mutating commands (`addChildNode`, `addSiblingNode`, `deleteNode`,
  `stopEditing`, `changeNodeColor`, `undo`, `saveToHistory`).  JavaScript
  node objects are mutable and shared between the live `Map` and the
  history snapshots (`saveToHistory` copies the `Map` with
  `new Map(this.nodes)`, which copies the key-to-object table but not the
  node objects).  To keep that sharing observable the embedding stores
  node values in an explicit heap (`heap : List Node`, a node reference is
  an index into it) and the `Map` is an insertion-ordered association
  list from ids to references.  Node ids are the strings `node-k` in the
  source; since `k ↦ "node-" ++ toString k` is injective we model ids by
  the counter value `k` itself.
* Layout layer (`Layout` namespace): `updateLayout` and everything it
  calls, as pure functions over an insertion-ordered association list
  from ids to node values with ℚ coordinates.  The layout engine reads
  and writes nodes only through `this.nodes`, so value semantics keyed by
  id coincides with the object semantics for well-formed stores (distinct
  ids name distinct objects).  The DOM measurement in
  `getActualNodeDimensions` is a parameter (the sampled width/height),
  floored exactly as in the source.
* Viewport layer: the wheel-zoom arithmetic and the model-to-screen
  transform used by `updateNodePosition`.

The command layer does not re-run the layout engine after a mutation (in
the source this happens in deferred callbacks); `updateLayout` only
rewrites `x`/`y`, which none of the command-layer claims constrain, and
it is verified separately on the layout layer.
-/

namespace MindMap

/-- A mind-map node, one JavaScript node object: fields exactly as built by
`createRootNode` / `addChildNode` / `addSiblingNode` in the source. -/
structure Node where
  id : ℕ
  text : String
  level : ℕ
  parent : Option ℕ
  children : List ℕ
  x : ℚ
  y : ℚ
  color : Option String
deriving Repr, DecidableEq

/-- Lookup in an insertion-ordered association list (the model of
`Map.prototype.get`). -/
def alookup {α : Type} : List (ℕ × α) → ℕ → Option α
  | [], _ => none
  | p :: ps, k => if p.1 = k then some p.2 else alookup ps k

/-- The model of `Map.prototype.set`: replace in place if the key is
present (JavaScript keeps the original insertion position), otherwise
append. -/
def aset {α : Type} (m : List (ℕ × α)) (k : ℕ) (v : α) : List (ℕ × α) :=
  if (alookup m k).isSome then
    m.map (fun p => if p.1 = k then (k, v) else p)
  else
    m ++ [(k, v)]

/-- The model of `Map.prototype.delete`. -/
def adelete {α : Type} (m : List (ℕ × α)) (k : ℕ) : List (ℕ × α) :=
  m.filter (fun p => p.1 ≠ k)

/-- A history entry, as built by `saveToHistory`: the copied key-to-object
table (`new Map(this.nodes)`), the id counter and the selection.  The
`timestamp` field of the source is dropped (nothing reads it). -/
structure HistoryEntry where
  nodes : List (ℕ × ℕ)
  nodeCounter : ℕ
  selectedNode : Option ℕ
deriving Repr, DecidableEq

/-- The mutable application state: the heap of node objects (a node
reference is an index into `heap`), the `this.nodes` map from ids to
references, the selection, the id counter and the undo history. -/
structure AppState where
  heap : List Node
  nodes : List (ℕ × ℕ)
  selectedNode : Option ℕ
  nodeCounter : ℕ
  history : List HistoryEntry
deriving Repr, DecidableEq

/-- The state a fresh `MindMapApp` starts from before `init` runs. -/
def emptyState : AppState :=
  { heap := [], nodes := [], selectedNode := none, nodeCounter := 0, history := [] }

/-- Dereference a node id through the map and the heap: the model of
`this.nodes.get(id)` followed by reading the object. -/
def getNode (s : AppState) (k : ℕ) : Option Node :=
  (alookup s.nodes k).bind (fun r => s.heap[r]?)

/-- Mutate the node object stored at heap index `r` (an in-place field
update on a JavaScript object). -/
def heapModify (h : List Node) (r : ℕ) (f : Node → Node) : List Node :=
  match h[r]? with
  | some n => h.set r (f n)
  | none => h

/-- The history capacity (`this.maxHistorySize`). -/
def maxHistorySize : ℕ := 50

/-- The entry `saveToHistory` pushes for the current state. -/
def mkEntry (s : AppState) : HistoryEntry :=
  { nodes := s.nodes, nodeCounter := s.nodeCounter, selectedNode := s.selectedNode }

/-- The model of `saveToHistory`: push the (shallow) snapshot, then drop
the oldest entry when the stack exceeds `maxHistorySize`. -/
def saveToHistory (s : AppState) : AppState :=
  let h := s.history ++ [mkEntry s]
  let h := if maxHistorySize < h.length then h.tail else h
  { s with history := h }

/-- The model of `selectNode` (the DOM class changes are dropped). -/
def selectNode (s : AppState) (k : Option ℕ) : AppState :=
  { s with selectedNode := k }

/-- The model of `generateId`: `node-${++this.nodeCounter}`, returning the
new id together with the updated state. -/
def generateId (s : AppState) : ℕ × AppState :=
  (s.nodeCounter + 1, { s with nodeCounter := s.nodeCounter + 1 })

/-- The model of `createRootNode`. -/
def createRootNode (s : AppState) : AppState :=
  let (rid, s) := generateId s
  let rootData : Node :=
    { id := rid, text := "メインアイデア", level := 0, parent := none,
      children := [], x := 0, y := 0, color := none }
  let s := { s with heap := s.heap ++ [rootData], nodes := aset s.nodes rid s.heap.length }
  selectNode s (some rid)

/-- The model of `addChildNode`: guard on the selected node, snapshot,
create the child, register it and push it onto the parent's `children`
(an in-place mutation of the shared parent object). -/
def addChildNode (s : AppState) : AppState :=
  match s.selectedNode with
  | none => s
  | some sel =>
    match alookup s.nodes sel, getNode s sel with
    | some pref, some parentNode =>
      let s := saveToHistory s
      let (nid, s) := generateId s
      let newNodeData : Node :=
        { id := nid, text := "ノード", level := parentNode.level + 1,
          parent := some parentNode.id, children := [],
          x := parentNode.x, y := parentNode.y, color := some "white" }
      let r := s.heap.length
      let s := { s with heap := s.heap ++ [newNodeData] }
      let s := { s with nodes := aset s.nodes nid r }
      let pushChild := fun (p : Node) => { p with children := p.children ++ [nid] }
      let s := { s with heap := heapModify s.heap pref pushChild }
      selectNode s (some nid)
    | _, _ => s

/-- The model of `addSiblingNode`: refuses on the root, resolves the
parent, then proceeds like `addChildNode` at the parent's level. -/
def addSiblingNode (s : AppState) : AppState :=
  match s.selectedNode with
  | none => s
  | some sel =>
    match getNode s sel with
    | none => s
    | some currentNode =>
      if currentNode.level = 0 then s else
      match currentNode.parent with
      | none => s
      | some pid =>
        match alookup s.nodes pid, getNode s pid with
        | some pref, some parentNode =>
          let s := saveToHistory s
          let (nid, s) := generateId s
          let newNodeData : Node :=
            { id := nid, text := "ノード", level := currentNode.level,
              parent := some parentNode.id, children := [],
              x := currentNode.x, y := currentNode.y, color := some "white" }
          let r := s.heap.length
          let s := { s with heap := s.heap ++ [newNodeData] }
          let s := { s with nodes := aset s.nodes nid r }
          let pushChild := fun (p : Node) => { p with children := p.children ++ [nid] }
          let s := { s with heap := heapModify s.heap pref pushChild }
          selectNode s (some nid)
        | _, _ => s

/-- The model of `deleteNode`: no-op when the id is absent or names the
root; otherwise snapshot, recursively delete the children captured at
entry, unlink from the parent object, remove the map entry and move the
selection.  The JavaScript recursion is unbounded; `fuel` dominates the
recursion depth (any `fuel` at least the subtree height gives the
source behaviour, which the theorems assume). -/
def deleteNode : ℕ → AppState → ℕ → AppState
  | 0, s, _ => s
  | fuel + 1, s, nodeId =>
    match getNode s nodeId with
    | none => s
    | some nodeData =>
      if nodeData.level = 0 then s else
      let s := saveToHistory s
      let s := nodeData.children.foldl (fun s c => deleteNode fuel s c) s
      let s :=
        match nodeData.parent with
        | none => s
        | some pid =>
          match alookup s.nodes pid with
          | some pref =>
            let unlink := fun (p : Node) =>
              { p with children := p.children.filter (fun i => i ≠ nodeId) }
            { s with heap := heapModify s.heap pref unlink }
          | none => s
      let s := { s with nodes := adelete s.nodes nodeId }
      if s.selectedNode = some nodeId then selectNode s nodeData.parent else s

/-- The model of `stopEditing` restricted to its data effect: write the
trimmed input (or the placeholder) into the edited node's `text`.  Note
that the source does not call `saveToHistory` here. -/
def stopEditing (s : AppState) (editingNode : Option ℕ) (inputValue : String) : AppState :=
  match editingNode with
  | none => s
  | some nid =>
    match alookup s.nodes nid with
    | none => s
    | some r =>
      let setText := fun (n : Node) =>
        { n with text := if inputValue.trim = "" then "ノード" else inputValue.trim }
      { s with heap := heapModify s.heap r setText }

/-- The model of `changeNodeColor`: snapshot, then overwrite the node's
`color` in place (the DOM-element existence check holds whenever the node
is rendered, i.e. whenever it is in the map). -/
def changeNodeColor (s : AppState) (nodeId : Option ℕ) (color : String) : AppState :=
  match nodeId with
  | none => s
  | some nid =>
    let s := saveToHistory s
    match alookup s.nodes nid with
    | none => s
    | some r =>
      { s with heap := heapModify s.heap r (fun n => { n with color := some color }) }

/-- The model of `undo`: pop the most recent entry, install its map copy,
counter and (revalidated) selection.  The deferred relayout only rewrites
coordinates and is verified separately. -/
def undo (s : AppState) : AppState :=
  match s.history.getLast? with
  | none => s
  | some previousState =>
    let s := { s with history := s.history.dropLast }
    let s := { s with nodes := previousState.nodes,
                      nodeCounter := previousState.nodeCounter,
                      selectedNode := none }
    match previousState.selectedNode with
    | some sel =>
      if (alookup s.nodes sel).isSome then selectNode s (some sel) else s
    | none => s

end MindMap

namespace MindMap

/-- A discrete command event, as dispatched by the keybinding / menu layer. -/
inductive Cmd where
  | addChild : Cmd
  | addSibling : Cmd
  | delete : ℕ → Cmd
  | editText : Option ℕ → String → Cmd
  | recolor : Option ℕ → String → Cmd
  | select : Option ℕ → Cmd
  | undoCmd : Cmd
deriving Repr, DecidableEq

/-- One step of the command dispatch.  `delete` is given fuel one more
than the store size, which dominates any subtree height. -/
def step (s : AppState) : Cmd → AppState
  | .addChild => addChildNode s
  | .addSibling => addSiblingNode s
  | .delete k => deleteNode (s.nodes.length + 1) s k
  | .editText e v => stopEditing s e v
  | .recolor k c => changeNodeColor s k c
  | .select k => selectNode s k
  | .undoCmd => undo s

/-- Run a session: the app boots with `createRootNode` and then processes
the command list. -/
def run (cmds : List Cmd) : AppState := cmds.foldl step (createRootNode emptyState)

@[simp] theorem saveToHistory_nodes (s : AppState) : (saveToHistory s).nodes = s.nodes := rfl

@[simp] theorem saveToHistory_heap (s : AppState) : (saveToHistory s).heap = s.heap := rfl

@[simp] theorem saveToHistory_nodeCounter (s : AppState) :
    (saveToHistory s).nodeCounter = s.nodeCounter := rfl

@[simp] theorem saveToHistory_selectedNode (s : AppState) :
    (saveToHistory s).selectedNode = s.selectedNode := rfl

@[simp] theorem selectNode_nodes (s : AppState) (k : Option ℕ) :
    (selectNode s k).nodes = s.nodes := rfl

@[simp] theorem selectNode_heap (s : AppState) (k : Option ℕ) :
    (selectNode s k).heap = s.heap := rfl

@[simp] theorem selectNode_nodeCounter (s : AppState) (k : Option ℕ) :
    (selectNode s k).nodeCounter = s.nodeCounter := rfl

@[simp] theorem selectNode_history (s : AppState) (k : Option ℕ) :
    (selectNode s k).history = s.history := rfl

@[simp] theorem selectNode_selectedNode (s : AppState) (k : Option ℕ) :
    (selectNode s k).selectedNode = k := rfl

theorem mem_saveToHistory_history {s : AppState} {e : HistoryEntry}
    (he : e ∈ (saveToHistory s).history) : e ∈ s.history ∨ e = mkEntry s := by
  unfold saveToHistory at he
  simp only at he
  have : e ∈ s.history ++ [mkEntry s] := by
    split at he
    · exact List.mem_of_mem_tail he
    · exact he
  simpa using this

/-- Every id in the given map copy is bounded by the given counter value. -/
def idsBounded (m : List (ℕ × ℕ)) (c : ℕ) : Prop := ∀ p ∈ m, p.1 ≤ c

/-- The id-freshness invariant: all live ids are bounded by the counter,
and every history entry satisfies the same bound for its own saved
counter (so that `undo`, which restores the counter, preserves it). -/
def counterInv (s : AppState) : Prop :=
  idsBounded s.nodes s.nodeCounter ∧ ∀ e ∈ s.history, idsBounded e.nodes e.nodeCounter

theorem idsBounded_mono {m : List (ℕ × ℕ)} {c c' : ℕ} (h : idsBounded m c) (hc : c ≤ c') :
    idsBounded m c' := fun p hp => le_trans (h p hp) hc

theorem idsBounded_aset {m : List (ℕ × ℕ)} {c k r : ℕ} (h : idsBounded m c) (hk : k ≤ c) :
    idsBounded (aset m k r) c := by
  intro p hp
  unfold aset at hp
  split at hp
  · rcases List.mem_map.1 hp with ⟨q, hq, hpq⟩
    by_cases hqk : q.1 = k
    · rw [if_pos hqk] at hpq
      subst hpq
      exact hk
    · rw [if_neg hqk] at hpq
      subst hpq
      exact h q hq
  · rcases List.mem_append.1 hp with hq | hq
    · exact h p hq
    · rcases List.mem_singleton.1 hq with rfl
      exact hk

theorem idsBounded_adelete {m : List (ℕ × ℕ)} {c k : ℕ} (h : idsBounded m c) :
    idsBounded (adelete m k) c := fun p hp => h p (List.mem_of_mem_filter hp)

theorem counterInv_saveToHistory {s : AppState} (h : counterInv s) :
    counterInv (saveToHistory s) := by
  refine ⟨h.1, fun e he => ?_⟩
  rcases mem_saveToHistory_history he with hm | hm
  · exact h.2 e hm
  · subst hm
    exact h.1

theorem counterInv_selectNode {s : AppState} {k : Option ℕ} (h : counterInv s) :
    counterInv (selectNode s k) := h

theorem counterInv_addChildNode {s : AppState} (h : counterInv s) :
    counterInv (addChildNode s) := by
  unfold addChildNode
  split
  · exact h
  · split
    · rename_i sel hsel pref parentNode hpref hnode
      have h1 := counterInv_saveToHistory h
      simp only [generateId]
      constructor
      · simp only [selectNode_nodes]
        exact idsBounded_aset (idsBounded_mono h1.1 (by simp)) (by simp)
      · intro e he
        simp only [selectNode_history] at he
        exact h1.2 e he
    · exact h

theorem counterInv_addSiblingNode {s : AppState} (h : counterInv s) :
    counterInv (addSiblingNode s) := by
  unfold addSiblingNode
  split
  · exact h
  · split
    · exact h
    · split
      · exact h
      · split
        · exact h
        · split
          · rename_i hpref
            have h1 := counterInv_saveToHistory h
            simp only [generateId]
            constructor
            · simp only [selectNode_nodes]
              exact idsBounded_aset (idsBounded_mono h1.1 (by simp)) (by simp)
            · intro e he
              simp only [selectNode_history] at he
              exact h1.2 e he
          · exact h

theorem counterInv_undo {s : AppState} (h : counterInv s) : counterInv (undo s) := by
  obtain ⟨h1, h2⟩ := h
  unfold undo
  split
  · exact ⟨h1, h2⟩
  · rename_i previousState hl
    have hmem : previousState ∈ s.history := by
      obtain ⟨hne, heq⟩ := List.mem_getLast?_eq_getLast (l := s.history) (Option.mem_def.mpr hl)
      exact heq ▸ List.getLast_mem hne
    have hbase : counterInv
        { s with history := s.history.dropLast, nodes := previousState.nodes,
                 nodeCounter := previousState.nodeCounter, selectedNode := none } :=
      ⟨h2 previousState hmem, fun e he => h2 e (List.mem_of_mem_dropLast he)⟩
    dsimp only
    split
    · split
      · exact hbase
      · exact hbase
    · exact hbase

theorem counterInv_deleteNode {fuel : ℕ} : ∀ {s : AppState} {k : ℕ},
    counterInv s → counterInv (deleteNode fuel s k) := by
  induction fuel with
  | zero => intro s k h; exact h
  | succ fuel ih =>
    intro s k h
    unfold deleteNode
    split
    · exact h
    · rename_i nodeData hget
      split
      · exact h
      · have hfold : ∀ (l : List ℕ) (s' : AppState), counterInv s' →
            counterInv (l.foldl (fun s c => deleteNode fuel s c) s') := by
          intro l
          induction l with
          | nil => intro s' h'; exact h'
          | cons a t iht => intro s' h'; exact iht _ (ih h')
        have h1 := hfold nodeData.children _ (counterInv_saveToHistory h)
        dsimp only
        generalize hs1 : List.foldl (fun s c => deleteNode fuel s c)
            (saveToHistory s) nodeData.children = s1 at h1 ⊢
        cases nodeData.parent with
        | none =>
          dsimp only
          split
          · exact ⟨idsBounded_adelete h1.1, h1.2⟩
          · exact ⟨idsBounded_adelete h1.1, h1.2⟩
        | some pid =>
          dsimp only
          cases alookup s1.nodes pid with
          | none =>
            dsimp only
            split
            · exact ⟨idsBounded_adelete h1.1, h1.2⟩
            · exact ⟨idsBounded_adelete h1.1, h1.2⟩
          | some pref =>
            dsimp only
            split
            · exact ⟨idsBounded_adelete h1.1, h1.2⟩
            · exact ⟨idsBounded_adelete h1.1, h1.2⟩

theorem counterInv_stopEditing {s : AppState} {e : Option ℕ} {v : String} (h : counterInv s) :
    counterInv (stopEditing s e v) := by
  unfold stopEditing
  split
  · exact h
  · split
    · exact h
    · exact h

theorem counterInv_changeNodeColor {s : AppState} {k : Option ℕ} {c : String} (h : counterInv s) :
    counterInv (changeNodeColor s k c) := by
  unfold changeNodeColor
  split
  · exact h
  · have h' := counterInv_saveToHistory h
    dsimp only
    split
    · exact h'
    · exact h'

theorem counterInv_step {s : AppState} (c : Cmd) (h : counterInv s) : counterInv (step s c) := by
  cases c with
  | addChild => exact counterInv_addChildNode h
  | addSibling => exact counterInv_addSiblingNode h
  | delete k => exact counterInv_deleteNode h
  | editText e v => exact counterInv_stopEditing h
  | recolor k c => exact counterInv_changeNodeColor h
  | select k => exact counterInv_selectNode h
  | undoCmd => exact counterInv_undo h

theorem counterInv_run (cmds : List Cmd) : counterInv (run cmds) := by
  unfold run
  have hinit : counterInv (createRootNode emptyState) := by
    unfold counterInv idsBounded
    decide
  induction cmds using List.reverseRecOn with
  | nil => exact hinit
  | append_singleton l c ih =>
    rw [List.foldl_append]
    exact counterInv_step c ih

end MindMap

namespace MindMap

/-- Claim C1 (code bug): the undo round-trip fails on the code.  The spec
says `saveToHistory` takes an immutable deep copy, but the source copies
the map with `new Map(this.nodes)`, sharing the node objects.  On the
concrete input (root id 1 with child id 2 of color `white`), running
`changeNodeColor(2, "red")` and then `undo()` leaves node 2 with color
`red`: the in-place mutation also rewrote the snapshot, so undo does not
restore the pre-command tree. -/
theorem undo_recolor_not_restored :
    (getNode (addChildNode (createRootNode emptyState)) 2).map Node.color
      = some (some "white") ∧
    (getNode (undo (changeNodeColor (addChildNode (createRootNode emptyState))
        (some 2) "red")) 2).map Node.color = some (some "red") := by
  exact ⟨rfl, rfl⟩

/-- Claim C2: the history stack is bounded by 50 entries.  Starting from
any state within capacity, a `saveToHistory` call keeps the stack within
capacity, its length becomes `min (old + 1) 50`, and at capacity the
oldest entry (the list head) is evicted before the new entry is appended,
so exactly the 50 most recent snapshots remain. -/
theorem saveToHistory_bounded_fifo (s : AppState) (h : s.history.length ≤ 50) :
    (saveToHistory s).history.length ≤ 50 ∧
    (saveToHistory s).history.length = min (s.history.length + 1) 50 ∧
    (saveToHistory s).history =
      (if s.history.length = 50 then s.history.tail else s.history) ++ [mkEntry s] := by
  unfold saveToHistory maxHistorySize
  dsimp only
  by_cases hc : s.history.length = 50
  · cases hh : s.history with
    | nil => rw [hh] at hc; simp at hc
    | cons a t =>
      rw [hh] at hc
      have hlen : t.length = 49 := by
        simp only [List.length_cons] at hc
        omega
      have hlt : 50 < ((a :: t) ++ [mkEntry s]).length := by
        simp only [List.length_append, List.length_cons, List.length_nil]
        omega
      rw [if_pos hlt, if_pos hc]
      refine ⟨?_, ?_, ?_⟩
      · simp [hlen]
      · simp [hlen]
      · simp [List.cons_append]
  · have hnlt : ¬ 50 < (s.history ++ [mkEntry s]).length := by
      simp only [List.length_append, List.length_singleton]
      omega
    rw [if_neg hnlt, if_neg hc]
    refine ⟨?_, ?_, rfl⟩
    · simp only [List.length_append, List.length_singleton]
      omega
    · simp only [List.length_append, List.length_singleton]
      omega

/-- Witness for `saveToHistory_bounded_fifo` at the empty state. -/
theorem saveToHistory_bounded_fifo_witness :
    emptyState.history.length ≤ 50 ∧
    ((saveToHistory emptyState).history.length ≤ 50 ∧
     (saveToHistory emptyState).history.length = min (emptyState.history.length + 1) 50 ∧
     (saveToHistory emptyState).history =
       (if emptyState.history.length = 50 then emptyState.history.tail else emptyState.history)
         ++ [mkEntry emptyState]) :=
  ⟨by decide, saveToHistory_bounded_fifo emptyState (by decide)⟩

/-- Claim C9 counterexample: ids are reused after `undo`.  In the session
`addChild; undo; addChild`, the first `addChild` assigns id 2 (counter
reaches 2), `undo` restores the counter to 1, and the second `addChild`
assigns id 2 again — so an id generated by `generateId` collides with an
id previously assigned in the same session, refuting monotonicity of the
counter across undo. -/
theorem generateId_reused_after_undo :
    (addChildNode (createRootNode emptyState)).nodeCounter = 2 ∧
    (getNode (addChildNode (createRootNode emptyState)) 2).isSome = true ∧
    (undo (addChildNode (createRootNode emptyState))).nodeCounter = 1 ∧
    (addChildNode (undo (addChildNode (createRootNode emptyState)))).nodeCounter = 2 ∧
    (getNode (addChildNode (undo (addChildNode (createRootNode emptyState)))) 2).isSome
      = true := by
  refine ⟨rfl, rfl, rfl, rfl, rfl⟩

/-- Claim C9, amended: in any session (any command sequence, undo
included) a freshly generated id is distinct from every id currently in
the store; without undo the counter is monotone, but undo can roll it
back, so only freshness with respect to the live store holds. -/
theorem generateId_fresh_for_store (cmds : List Cmd) :
    ∀ p ∈ (run cmds).nodes, p.1 ≠ (generateId (run cmds)).1 := by
  intro p hp
  have h := (counterInv_run cmds).1 p hp
  have hg : (generateId (run cmds)).1 = (run cmds).nodeCounter + 1 := rfl
  omega

/-- Witness for `generateId_fresh_for_store` on the empty session. -/
theorem generateId_fresh_for_store_witness :
    ((1, 0) : ℕ × ℕ) ∈ (run []).nodes ∧ ((1, 0) : ℕ × ℕ).1 ≠ (generateId (run [])).1 :=
  ⟨by decide, generateId_fresh_for_store [] (1, 0) (by decide)⟩

end MindMap

namespace MindMap

/-- The pan/zoom state (`this.viewport`). -/
structure Viewport where
  x : ℚ
  y : ℚ
  scale : ℚ
deriving Repr, DecidableEq

/-- The model-to-screen transform used by `updateNodePosition` and
`createConnection`: `screen = (model + offset) * scale + screenCenter`
(one axis; both axes use the same formula). -/
def toScreen (m voff scale center : ℚ) : ℚ := (m + voff) * scale + center

/-- The wheel handler installed by `setupPanAndZoom`.  `mouseX`/`mouseY`
are the pointer offsets from the screen centre
(`e.clientX - rect.left - innerWidth / 2`, with the container at the
viewport origin); `zoomIn` is `e.deltaY < 0`. -/
def wheelZoom (v : Viewport) (zoomIn : Bool) (mouseX mouseY : ℚ) : Viewport :=
  let zoomFactor : ℚ := 1.05
  let oldScale := v.scale
  let newScale := if zoomIn then v.scale * zoomFactor else v.scale / zoomFactor
  let newScale := max 0.1 (min 3 newScale)
  let scaleDiff := newScale - oldScale
  { x := v.x - (mouseX / oldScale) * scaleDiff / newScale,
    y := v.y - (mouseY / oldScale) * scaleDiff / newScale,
    scale := newScale }

theorem toScreen_pointer (s voff mX c : ℚ) (h : s ≠ 0) :
    toScreen (mX / s - voff) voff s c = mX + c := by
  unfold toScreen
  field_simp
  ring

theorem zoom_adjust_anchor (s0 s1 voff mX c : ℚ) (h0 : s0 ≠ 0) (h1 : s1 ≠ 0) :
    toScreen (mX / s0 - voff) (voff - mX / s0 * (s1 - s0) / s1) s1 c = mX + c := by
  unfold toScreen
  field_simp
  ring

/-- Claim C7: pointer-anchored zoom.  For a viewport with scale in the
clamp range, a wheel event multiplies or divides the scale by 1.05 and
clamps it to [0.1, 3], and the pan offsets are adjusted so that the model
point that was under the pointer (screen position `mouseX + cx`,
`mouseY + cy`) is mapped to the same screen position after the zoom. -/
theorem wheelZoom_anchored (v : Viewport) (zoomIn : Bool) (mouseX mouseY cx cy : ℚ)
    (h1 : 0.1 ≤ v.scale) (h2 : v.scale ≤ 3) :
    (wheelZoom v zoomIn mouseX mouseY).scale
        = max 0.1 (min 3 (if zoomIn then v.scale * 1.05 else v.scale / 1.05)) ∧
    toScreen (mouseX / v.scale - v.x) v.x v.scale cx = mouseX + cx ∧
    toScreen (mouseY / v.scale - v.y) v.y v.scale cy = mouseY + cy ∧
    toScreen (mouseX / v.scale - v.x) (wheelZoom v zoomIn mouseX mouseY).x
        (wheelZoom v zoomIn mouseX mouseY).scale cx = mouseX + cx ∧
    toScreen (mouseY / v.scale - v.y) (wheelZoom v zoomIn mouseX mouseY).y
        (wheelZoom v zoomIn mouseX mouseY).scale cy = mouseY + cy := by
  have hs0 : v.scale ≠ 0 := by
    have : (0 : ℚ) < v.scale := lt_of_lt_of_le (by norm_num) h1
    exact ne_of_gt this
  have hs1 : (wheelZoom v zoomIn mouseX mouseY).scale ≠ 0 := by
    have hge : (0.1 : ℚ) ≤ (wheelZoom v zoomIn mouseX mouseY).scale := le_max_left _ _
    have : (0 : ℚ) < (wheelZoom v zoomIn mouseX mouseY).scale :=
      lt_of_lt_of_le (by norm_num) hge
    exact ne_of_gt this
  refine ⟨rfl, toScreen_pointer _ _ _ _ hs0, toScreen_pointer _ _ _ _ hs0, ?_, ?_⟩
  · exact zoom_adjust_anchor v.scale _ v.x mouseX cx hs0 hs1
  · exact zoom_adjust_anchor v.scale _ v.y mouseY cy hs0 hs1

/-- Witness for `wheelZoom_anchored` at the identity viewport. -/
theorem wheelZoom_anchored_witness :
    ((0.1 : ℚ) ≤ (1 : ℚ) ∧ (1 : ℚ) ≤ 3) ∧
    ((wheelZoom ⟨0, 0, 1⟩ true 20 10).scale
        = max 0.1 (min 3 (if true then (1 : ℚ) * 1.05 else (1 : ℚ) / 1.05)) ∧
     toScreen (20 / (1 : ℚ) - 0) 0 1 7 = 20 + 7 ∧
     toScreen (10 / (1 : ℚ) - 0) 0 1 9 = 10 + 9 ∧
     toScreen (20 / (1 : ℚ) - 0) (wheelZoom ⟨0, 0, 1⟩ true 20 10).x
        (wheelZoom ⟨0, 0, 1⟩ true 20 10).scale 7 = 20 + 7 ∧
     toScreen (10 / (1 : ℚ) - 0) (wheelZoom ⟨0, 0, 1⟩ true 20 10).y
        (wheelZoom ⟨0, 0, 1⟩ true 20 10).scale 9 = 10 + 9) :=
  ⟨⟨by norm_num, by norm_num⟩,
   wheelZoom_anchored ⟨0, 0, 1⟩ true 20 10 7 9 (by norm_num) (by norm_num)⟩

end MindMap

namespace MindMap

/-- A persisted blob as `loadFromDatabase` observes it through
`localStorage.getItem` and `JSON.parse`: absent (`getItem` returned
null), malformed (parsing or `Map` reconstruction threw, caught by the
handler), or a parsed record with its node entries, counter and
viewport (absent fields model JavaScript `undefined`). -/
inductive Blob where
  | absent : Blob
  | malformed : Blob
  | parsed : List (ℕ × Node) → Option ℕ → Option Viewport → Blob
deriving Repr, DecidableEq

/-- The application state visible to the boot path: the tree state plus
the viewport field. -/
structure BootState where
  app : AppState
  viewport : Viewport
deriving Repr, DecidableEq

/-- Pair each parsed entry id with its heap index (the reference of the
freshly allocated node object), starting at index `i`. -/
def indexPairs : List (ℕ × Node) → ℕ → List (ℕ × ℕ)
  | [], _ => []
  | p :: ps, i => (p.1, i) :: indexPairs ps (i + 1)

/-- The model of `loadFromDatabase`: returns `false` (state untouched)
for an absent or malformed blob; otherwise installs the parsed entries
verbatim — fresh node objects, `nodeCounter = data.nodeCounter || 0`,
`viewport = data.viewport || {x:0,y:0,scale:1}` — and selects the first
level-0 node if one exists.  No structural check of any kind is made. -/
def loadFromDatabase (st : BootState) (b : Blob) : Bool × BootState :=
  match b with
  | .absent => (false, st)
  | .malformed => (false, st)
  | .parsed ns nc vp =>
    let heap := ns.map Prod.snd
    let nodes := indexPairs ns 0
    let app := { st.app with heap := heap, nodes := nodes, nodeCounter := nc.getD 0 }
    let app :=
      match (ns.map Prod.snd).find? (fun n => n.level = 0) with
      | some rootNode => selectNode app (some rootNode.id)
      | none => app
    (true, { app := app, viewport := vp.getD { x := 0, y := 0, scale := 1 } })

/-- The boot path of `init`: try `loadFromDatabase`; on failure create a
fresh root. -/
def bootFromBlob (b : Blob) : BootState :=
  let st : BootState := { app := emptyState, viewport := { x := 0, y := 0, scale := 1 } }
  let r := loadFromDatabase st b
  if r.1 then r.2 else { r.2 with app := createRootNode r.2.app }

/-- A structurally corrupt blob: one node at level 1 whose parent id 99
resolves to nothing, and no level-0 node at all. -/
def corruptNode : Node :=
  { id := 2, text := "orphan", level := 1, parent := some 99,
    children := [], x := 0, y := 0, color := some "white" }

/-- The corrupt blob used as the counterexample input for claim C8. -/
def corruptBlob : Blob := .parsed [(2, corruptNode)] (some 5) none

/-- Claim C8 counterexample: `loadFromDatabase` accepts a blob that has a
dangling parent reference and no root.  The load reports success, the
orphan node is installed with its dangling parent intact, the store
contains no level-0 node, and no fresh root is bootstrapped — whereas the
claim requires the blob to be rejected as CorruptData. -/
theorem loadFromDatabase_accepts_corrupt :
    (loadFromDatabase { app := emptyState, viewport := { x := 0, y := 0, scale := 1 } }
        corruptBlob).1 = true ∧
    (bootFromBlob corruptBlob).app.nodes = [(2, 0)] ∧
    getNode (bootFromBlob corruptBlob).app 2 = some corruptNode ∧
    getNode (bootFromBlob corruptBlob).app 99 = none ∧
    ((bootFromBlob corruptBlob).app.heap.filter (fun n => n.level = 0)) = [] := by
  refine ⟨rfl, rfl, rfl, rfl, rfl⟩

theorem indexPairs_map_fst (ns : List (ℕ × Node)) (i : ℕ) :
    (indexPairs ns i).map Prod.fst = ns.map Prod.fst := by
  induction ns generalizing i with
  | nil => rfl
  | cons p ps ih => simp [indexPairs, ih]

/-- Claim C8, amended: `loadFromDatabase` performs no structural
validation.  It reports failure — upon which the caller bootstraps a
fresh single-root tree — exactly when the blob is absent or unparseable;
every parsed blob, dangling parents or zero/multiple roots included, is
installed verbatim (same ids in the same order, same node objects). -/
theorem loadFromDatabase_no_validation (b : Blob) :
    (∀ ns nc vp, b = .parsed ns nc vp →
      (loadFromDatabase { app := emptyState, viewport := { x := 0, y := 0, scale := 1 } } b).1
          = true ∧
      (bootFromBlob b).app.nodes.map Prod.fst = ns.map Prod.fst ∧
      (bootFromBlob b).app.heap = ns.map Prod.snd) ∧
    ((b = .absent ∨ b = .malformed) →
      (loadFromDatabase { app := emptyState, viewport := { x := 0, y := 0, scale := 1 } } b).1
          = false ∧
      (bootFromBlob b).app = createRootNode emptyState) := by
  constructor
  · rintro ns nc vp rfl
    have hb : bootFromBlob (Blob.parsed ns nc vp)
        = (loadFromDatabase { app := emptyState, viewport := { x := 0, y := 0, scale := 1 } }
            (Blob.parsed ns nc vp)).2 := rfl
    have hnodes : (bootFromBlob (Blob.parsed ns nc vp)).app.nodes = indexPairs ns 0 := by
      rw [hb]
      unfold loadFromDatabase
      dsimp only
      split <;> rfl
    have hheap : (bootFromBlob (Blob.parsed ns nc vp)).app.heap = ns.map Prod.snd := by
      rw [hb]
      unfold loadFromDatabase
      dsimp only
      split <;> rfl
    refine ⟨rfl, ?_, hheap⟩
    rw [hnodes]
    exact indexPairs_map_fst ns 0
  · rintro (rfl | rfl)
    · exact ⟨rfl, rfl⟩
    · exact ⟨rfl, rfl⟩

/-- Witness for `loadFromDatabase_no_validation` at the corrupt blob and
the absent blob. -/
theorem loadFromDatabase_no_validation_witness :
    (corruptBlob = Blob.parsed [(2, corruptNode)] (some 5) none ∧
      (loadFromDatabase { app := emptyState, viewport := { x := 0, y := 0, scale := 1 } }
          corruptBlob).1 = true ∧
      (bootFromBlob corruptBlob).app.nodes.map Prod.fst
          = ([(2, corruptNode)].map Prod.fst : List ℕ) ∧
      (bootFromBlob corruptBlob).app.heap = [(2, corruptNode)].map Prod.snd) ∧
    (Blob.absent = Blob.absent ∨ Blob.absent = Blob.malformed) ∧
    ((loadFromDatabase { app := emptyState, viewport := { x := 0, y := 0, scale := 1 } }
          Blob.absent).1 = false ∧
      (bootFromBlob Blob.absent).app = createRootNode emptyState) :=
  ⟨⟨rfl, (loadFromDatabase_no_validation corruptBlob).1 [(2, corruptNode)] (some 5) none rfl⟩,
   Or.inl rfl,
   (loadFromDatabase_no_validation Blob.absent).2 (Or.inl rfl)⟩

end MindMap

namespace MindMap

/-- A rose tree of node ids, describing the shape of a live subtree of
the store; the deletion claims are proved by structural induction on it. -/
inductive RT where
  | node : ℕ → List RT → RT

/-- The id at the root of a subtree description. -/
def RT.rootId : RT → ℕ
  | .node i _ => i

mutual

/-- All ids of a subtree description, in the preorder the recursive
delete visits them. -/
def RT.ids : RT → List ℕ
  | .node i cs => i :: idsList cs

/-- Ids of a forest, in order. -/
def idsList : List RT → List ℕ
  | [] => []
  | t :: ts => t.ids ++ idsList ts

end

mutual

/-- Height of a subtree description (a leaf has height 1). -/
def RT.height : RT → ℕ
  | .node _ cs => 1 + heightList cs

/-- Height of a forest (an empty forest has height 0). -/
def heightList : List RT → ℕ
  | [] => 0
  | t :: ts => max t.height (heightList ts)

end

mutual

/-- The store `g` realises the subtree description `t` whose root object
has parent pointer `par` and level `l`: the root id resolves to a node
with exactly these fields and with `children` listing the child
descriptions' roots in order, recursively. -/
def repB (g : ℕ → Option Node) (par : Option ℕ) (l : ℕ) : RT → Bool
  | .node i cs =>
    match g i with
    | none => false
    | some n =>
      (n.id == i) && (n.level == l) && (n.parent == par) &&
      (n.children == List.map RT.rootId cs) && repList g i (l + 1) cs

/-- The store `g` realises each subtree of the forest, all with parent
`i` and level `l`. -/
def repList (g : ℕ → Option Node) (i : ℕ) (l : ℕ) : List RT → Bool
  | [] => true
  | t :: ts => repB g (some i) l t && repList g i l ts

end

theorem repB_node_iff (g : ℕ → Option Node) (par : Option ℕ) (l i : ℕ) (cs : List RT) :
    repB g par l (.node i cs) = true ↔
    ∃ n, g i = some n ∧ n.id = i ∧ n.level = l ∧ n.parent = par ∧
      n.children = List.map RT.rootId cs ∧ repList g i (l + 1) cs = true := by
  unfold repB
  cases hg : g i with
  | none => simp
  | some n => simp [Bool.and_assoc]

theorem repList_cons_iff (g : ℕ → Option Node) (i l : ℕ) (t : RT) (ts : List RT) :
    repList g i l (t :: ts) = true ↔
    repB g (some i) l t = true ∧ repList g i l ts = true := by
  simp only [repList, Bool.and_eq_true]

mutual

theorem repB_congr (g g' : ℕ → Option Node) (par : Option ℕ) (l : ℕ) (t : RT)
    (h : ∀ k ∈ t.ids, g k = g' k) : repB g par l t = repB g' par l t := by
  match t with
  | .node i cs =>
    have hi : g i = g' i := h i (by simp [RT.ids])
    unfold repB
    rw [hi]
    cases g' i with
    | none => rfl
    | some n =>
      have := repList_congr g g' i (l + 1) cs
          (fun k hk => h k (by simp [RT.ids, hk]))
      rw [this]

theorem repList_congr (g g' : ℕ → Option Node) (i l : ℕ) (ts : List RT)
    (h : ∀ k ∈ idsList ts, g k = g' k) : repList g i l ts = repList g' i l ts := by
  match ts with
  | [] => rfl
  | t :: ts =>
    unfold repList
    rw [repB_congr g g' (some i) l t (fun k hk => h k (by simp [idsList, hk])),
        repList_congr g g' i l ts (fun k hk => h k (by simp [idsList, hk]))]

end

theorem mem_ids_node (k i : ℕ) (cs : List RT) :
    k ∈ (RT.node i cs).ids ↔ k = i ∨ k ∈ idsList cs := by
  simp [RT.ids]

theorem mem_idsList_cons (k : ℕ) (t : RT) (ts : List RT) :
    k ∈ idsList (t :: ts) ↔ k ∈ t.ids ∨ k ∈ idsList ts := by
  simp [idsList]

theorem rootId_mem_ids (t : RT) : t.rootId ∈ t.ids := by
  match t with
  | .node i cs => simp [RT.ids, RT.rootId]

theorem height_pos (t : RT) : 1 ≤ t.height := by
  match t with
  | .node i cs => unfold RT.height; omega

end MindMap

namespace MindMap

theorem alookup_mem {α : Type} {m : List (ℕ × α)} {k : ℕ} {v : α}
    (h : alookup m k = some v) : (k, v) ∈ m := by
  induction m with
  | nil => simp [alookup] at h
  | cons p ps ih =>
    unfold alookup at h
    split at h
    · rename_i hk
      injection h with hv
      obtain ⟨p1, p2⟩ := p
      dsimp only at hk hv
      subst hk
      subst hv
      exact List.mem_cons_self _ _
    · exact List.mem_cons_of_mem _ (ih h)

theorem alookup_ref_ne {m : List (ℕ × ℕ)} (hrefs : (m.map Prod.snd).Nodup)
    {k1 k2 r1 r2 : ℕ} (h1 : alookup m k1 = some r1) (h2 : alookup m k2 = some r2)
    (hne : k1 ≠ k2) : r1 ≠ r2 := by
  intro hr
  have hm1 := alookup_mem h1
  have hm2 := alookup_mem h2
  have := List.inj_on_of_nodup_map hrefs hm1 hm2 (by simpa using hr)
  exact hne (by simpa using congrArg Prod.fst this)

theorem alookup_filter_keys {α : Type} (m : List (ℕ × α)) (D : List ℕ) (k : ℕ) :
    alookup (m.filter (fun q => q.1 ∉ D)) k = if k ∈ D then none else alookup m k := by
  induction m with
  | nil =>
    simp only [List.filter_nil]
    split <;> rfl
  | cons p ps ih =>
    by_cases hd : p.1 ∈ D
    · rw [List.filter_cons_of_neg (by simpa using hd)]
      rw [ih]
      by_cases hk : k ∈ D
      · simp [hk]
      · have hne : p.1 ≠ k := fun h => hk (h ▸ hd)
        simp [hk, alookup, hne]
    · rw [List.filter_cons_of_pos (by simpa using hd)]
      unfold alookup
      by_cases hpk : p.1 = k
      · have hk : k ∉ D := hpk ▸ hd
        simp [hpk, hk]
      · rw [if_neg hpk, ih]
        by_cases hk : k ∈ D <;> simp [hk, alookup, hpk]

theorem alookup_adelete {α : Type} (m : List (ℕ × α)) (i k : ℕ) :
    alookup (adelete m i) k = if k = i then none else alookup m k := by
  induction m with
  | nil =>
    unfold adelete
    simp only [List.filter_nil]
    split <;> rfl
  | cons p ps ih =>
    unfold adelete at ih ⊢
    by_cases hpi : p.1 = i
    · rw [List.filter_cons_of_neg (by simpa using hpi)]
      rw [ih]
      by_cases hk : k = i
      · simp [hk]
      · have hne : p.1 ≠ k := by rw [hpi]; exact fun h => hk h.symm
        simp [hk, alookup, hne]
    · rw [List.filter_cons_of_pos (by simpa using hpi)]
      unfold alookup
      by_cases hpk : p.1 = k
      · have hk : ¬ k = i := by
          rw [← hpk]
          exact hpi
        simp [hpk, hk]
      · rw [if_neg hpk, ih]
        by_cases hk : k = i <;> simp [hk, alookup, hpk]

theorem filter_keys_filter_keys {α : Type} (m : List (ℕ × α)) (D E : List ℕ) :
    (m.filter (fun q => q.1 ∉ D)).filter (fun q => q.1 ∉ E)
      = m.filter (fun q => q.1 ∉ D ++ E) := by
  rw [List.filter_filter]
  apply List.filter_congr
  intro x hx
  by_cases h1 : x.1 ∈ D <;> by_cases h2 : x.1 ∈ E <;> simp [h1, h2]

theorem filter_keys_erase {α : Type} (m : List (ℕ × α)) (D : List ℕ) (i : ℕ) :
    (m.filter (fun q => q.1 ∉ D)).filter (fun q => q.1 ≠ i)
      = m.filter (fun q => q.1 ∉ i :: D) := by
  rw [List.filter_filter]
  apply List.filter_congr
  intro x hx
  by_cases h1 : x.1 ∈ D <;> by_cases h2 : x.1 = i <;> simp [h1, h2]

theorem filter_keys_nil {α : Type} (m : List (ℕ × α)) :
    m.filter (fun q => q.1 ∉ ([] : List ℕ)) = m :=
  List.filter_eq_self.mpr (fun a _ => by simp)

theorem heapModify_length (h : List Node) (r : ℕ) (f : Node → Node) :
    (heapModify h r f).length = h.length := by
  unfold heapModify
  split
  · exact List.length_set h r _
  · rfl

theorem heapModify_get_ne (h : List Node) (r : ℕ) (f : Node → Node) (j : ℕ) (hne : r ≠ j) :
    (heapModify h r f)[j]? = h[j]? := by
  unfold heapModify
  split
  · exact List.getElem?_set_ne hne
  · rfl

theorem heapModify_get_self {h : List Node} {r : ℕ} {n : Node} (f : Node → Node)
    (hr : h[r]? = some n) : (heapModify h r f)[r]? = some (f n) := by
  unfold heapModify
  rw [hr]
  obtain ⟨hlt, _⟩ := List.getElem?_eq_some.mp hr
  simp [List.getElem?_set_self hlt]

theorem saveToHistory_length (s : AppState) (h : s.history.length ≤ 50) :
    (saveToHistory s).history.length = min (s.history.length + 1) 50 := by
  unfold saveToHistory maxHistorySize
  dsimp only
  by_cases hc : 50 < (s.history ++ [mkEntry s]).length
  · rw [if_pos hc]
    simp only [List.length_append, List.length_singleton] at hc ⊢
    rw [List.length_tail]
    simp only [List.length_append, List.length_singleton]
    omega
  · rw [if_neg hc]
    simp only [List.length_append, List.length_singleton] at hc ⊢
    omega

end MindMap

namespace MindMap

@[simp] theorem getNode_saveToHistory (s : AppState) (k : ℕ) :
    getNode (saveToHistory s) k = getNode s k := rfl

theorem filter_ne_filter_not_mem (l : List ℕ) (i : ℕ) (E : List ℕ) :
    (l.filter (fun j => j ≠ i)).filter (fun j => j ∉ E)
      = l.filter (fun j => j ∉ i :: E) := by
  rw [List.filter_filter]
  apply List.filter_congr
  intro x hx
  by_cases h1 : x = i <;> by_cases h2 : x ∈ E <;> simp [h1, h2]

theorem filter_not_mem_nil (l : List ℕ) :
    l.filter (fun j => j ∉ ([] : List ℕ)) = l :=
  List.filter_eq_self.mpr (fun a _ => by simp)

/-- One unfolding of `deleteNode` on a present non-root node whose
parent entry is found in the map after the recursive child deletions. -/
theorem deleteNode_step_unlink {fuel : ℕ} {s s2 : AppState} {k p pref : ℕ} {nodeData : Node}
    (hg : getNode s k = some nodeData) (hlv : ¬ nodeData.level = 0)
    (hpar : nodeData.parent = some p)
    (hs2 : nodeData.children.foldl (fun s c => deleteNode fuel s c) (saveToHistory s) = s2)
    (halp : alookup s2.nodes p = some pref) :
    deleteNode (fuel + 1) s k =
      (let unlink := fun (q : Node) => { q with children := q.children.filter (fun i => i ≠ k) }
       let s3 := { s2 with heap := heapModify s2.heap pref unlink }
       let s4 := { s3 with nodes := adelete s3.nodes k }
       if s4.selectedNode = some k then selectNode s4 (some p) else s4) := by
  unfold deleteNode
  rw [hg]
  dsimp only
  rw [if_neg hlv, hpar]
  dsimp only
  rw [hs2, halp]

/-- One unfolding of `deleteNode` on a present non-root node whose
parent entry is no longer in the map after the recursive child
deletions (the unlink step is skipped). -/
theorem deleteNode_step_nounlink {fuel : ℕ} {s s2 : AppState} {k p : ℕ} {nodeData : Node}
    (hg : getNode s k = some nodeData) (hlv : ¬ nodeData.level = 0)
    (hpar : nodeData.parent = some p)
    (hs2 : nodeData.children.foldl (fun s c => deleteNode fuel s c) (saveToHistory s) = s2)
    (halp : alookup s2.nodes p = none) :
    deleteNode (fuel + 1) s k =
      (let s4 := { s2 with nodes := adelete s2.nodes k }
       if s4.selectedNode = some k then selectNode s4 (some p) else s4) := by
  unfold deleteNode
  rw [hg]
  dsimp only
  rw [if_neg hlv, hpar]
  dsimp only
  rw [hs2, halp]

end MindMap

namespace MindMap

theorem ite_selectNode_nodes (c : Prop) [Decidable c] (s4 : AppState) (pp : Option ℕ) :
    (if c then selectNode s4 pp else s4).nodes = s4.nodes := by
  split <;> rfl

theorem ite_selectNode_heap (c : Prop) [Decidable c] (s4 : AppState) (pp : Option ℕ) :
    (if c then selectNode s4 pp else s4).heap = s4.heap := by
  split <;> rfl

theorem ite_selectNode_history (c : Prop) [Decidable c] (s4 : AppState) (pp : Option ℕ) :
    (if c then selectNode s4 pp else s4).history = s4.history := by
  split <;> rfl

theorem ite_selectNode_nodeCounter (c : Prop) [Decidable c] (s4 : AppState) (pp : Option ℕ) :
    (if c then selectNode s4 pp else s4).nodeCounter = s4.nodeCounter := by
  split <;> rfl

theorem ite_selectNode_selectedNode (c : Prop) [Decidable c] (s4 : AppState) (pp : Option ℕ) :
    (if c then selectNode s4 pp else s4).selectedNode
      = if c then pp else s4.selectedNode := by
  split <;> rfl

mutual

/-- Effect of `deleteNode` on a store that realises the subtree
description `t` under parent `p`: all ids of `t` are removed from the map
(in place, order preserved), every other node is untouched except the
parent, whose `children` list loses the deleted root, the selection moves
to `p` when it pointed into the subtree, and one history entry is pushed
per removed node (with FIFO eviction at capacity 50). -/
theorem deleteNode_tree_spec (fuel : ℕ) (t : RT) (s : AppState) (l p : ℕ)
    (hrep : repB (getNode s) (some p) l t = true)
    (hl : l ≠ 0)
    (hids : t.ids.Nodup)
    (hkeys : (s.nodes.map Prod.fst).Nodup)
    (hrefs : (s.nodes.map Prod.snd).Nodup)
    (hp : p ∉ t.ids)
    (hfuel : t.height ≤ fuel)
    (hhist : s.history.length ≤ 50) :
    (deleteNode fuel s t.rootId).nodes = s.nodes.filter (fun q => q.1 ∉ t.ids) ∧
    (∀ k, k ∉ t.ids → k ≠ p → getNode (deleteNode fuel s t.rootId) k = getNode s k) ∧
    (∀ np, getNode s p = some np →
      getNode (deleteNode fuel s t.rootId) p
        = some { np with children := np.children.filter (fun j => j ≠ t.rootId) }) ∧
    (deleteNode fuel s t.rootId).heap.length = s.heap.length ∧
    (deleteNode fuel s t.rootId).selectedNode
      = (match s.selectedNode with
         | some q => if q ∈ t.ids then some p else some q
         | none => none) ∧
    (deleteNode fuel s t.rootId).history.length = min (s.history.length + t.ids.length) 50 ∧
    (deleteNode fuel s t.rootId).nodeCounter = s.nodeCounter := by
  match t, fuel with
  | RT.node i cs, 0 =>
    exact absurd hfuel (by have := height_pos (RT.node i cs); omega)
  | RT.node i cs, fuel + 1 =>
    obtain ⟨n, hgi, hnid, hnlv, hnpar, hnch, hcs⟩ := (repB_node_iff _ _ _ _ _).mp hrep
    have hidscons : (RT.node i cs).ids = i :: idsList cs := rfl
    have hnodup := hidscons ▸ hids
    have hinotin : i ∉ idsList cs := (List.nodup_cons.mp hnodup).1
    have hidsl : (idsList cs).Nodup := (List.nodup_cons.mp hnodup).2
    have hpi : p ≠ i := fun h => hp (by rw [hidscons, h]; exact List.mem_cons_self _ _)
    have hpl : p ∉ idsList cs := fun h => hp (by rw [hidscons]; exact List.mem_cons_of_mem _ h)
    have hlv : ¬ n.level = 0 := by rw [hnlv]; exact hl
    have hh1 : (saveToHistory s).history.length = min (s.history.length + 1) 50 :=
      saveToHistory_length s hhist
    have hcs1 : repList (getNode (saveToHistory s)) i (l + 1) cs = true := hcs
    have hheight : (RT.node i cs).height = 1 + heightList cs := rfl
    obtain ⟨F1, F2, F3, F4, F5, F6, F7⟩ :=
      deleteNode_forest_spec fuel cs (saveToHistory s) (l + 1) i hcs1
        (by omega) hidsl hkeys hrefs hinotin (by omega) (by omega)
    simp only [saveToHistory_nodes, getNode_saveToHistory, saveToHistory_selectedNode,
      saveToHistory_nodeCounter] at F1 F2 F3 F4 F5 F6 F7
    rw [hh1] at F6
    set s2 := List.foldl (fun s c => deleteNode fuel s c) (saveToHistory s)
      (List.map RT.rootId cs) with hs2def
    have hfold : n.children.foldl (fun s c => deleteNode fuel s c) (saveToHistory s) = s2 := by
      rw [hnch]
    have halp2 : alookup s2.nodes p = alookup s.nodes p := by
      rw [F1, alookup_filter_keys, if_neg hpl]
    have hroot : (RT.node i cs).rootId = i := rfl
    rw [hroot, hidscons]
    have hlen : (i :: idsList cs).length = 1 + (idsList cs).length := by
      rw [List.length_cons]; omega
    cases halp : alookup s.nodes p with
    | none =>
      have hgp : getNode s p = none := by
        unfold getNode
        rw [halp]
        rfl
      rw [deleteNode_step_nounlink hgi hlv hnpar hfold (by rw [halp2, halp])]
      dsimp only
      refine ⟨?_, ?_, ?_, ?_, ?_, ?_, ?_⟩
      · rw [ite_selectNode_nodes]
        show adelete s2.nodes i = _
        unfold adelete
        rw [F1, filter_keys_erase]
      · intro k hk hkp
        have hki : k ≠ i := fun h => hk (h ▸ List.mem_cons_self _ _)
        have hkl : k ∉ idsList cs := fun h => hk (List.mem_cons_of_mem _ h)
        unfold getNode
        rw [ite_selectNode_nodes, ite_selectNode_heap]
        show (alookup (adelete s2.nodes i) k).bind _ = _
        rw [alookup_adelete, if_neg hki]
        exact F2 k hkl hki
      · intro np hnp
        rw [hgp] at hnp
        cases hnp
      · rw [ite_selectNode_heap]
        exact F4
      · rw [ite_selectNode_selectedNode]
        show (if (s2.selectedNode = some i) then some p else s2.selectedNode) = _
        rw [F5]
        cases hselS : s.selectedNode with
        | none => simp
        | some q =>
          dsimp only
          by_cases hqm : q ∈ idsList cs
          · rw [if_pos hqm]
            simp [List.mem_cons, hqm]
          · rw [if_neg hqm]
            by_cases hqi : q = i
            · simp [hqi]
            · have : q ∉ i :: idsList cs := by
                simp [List.mem_cons, hqi, hqm]
              simp [Option.some.injEq, hqi, this]
      · rw [ite_selectNode_history]
        show s2.history.length = _
        rw [F6, hlen]
        omega
      · rw [ite_selectNode_nodeCounter]
        exact F7
    | some pref =>
      have hrefs2 : (s2.nodes.map Prod.snd).Nodup := by
        rw [F1]
        exact List.Nodup.sublist (List.Sublist.map _ (List.filter_sublist _)) hrefs
      have hgp2 : getNode s2 p = getNode s p := F2 p hpl hpi
      rw [deleteNode_step_unlink hgi hlv hnpar hfold (by rw [halp2, halp])]
      dsimp only
      refine ⟨?_, ?_, ?_, ?_, ?_, ?_, ?_⟩
      · rw [ite_selectNode_nodes]
        show adelete s2.nodes i = _
        unfold adelete
        rw [F1, filter_keys_erase]
      · intro k hk hkp
        have hki : k ≠ i := fun h => hk (h ▸ List.mem_cons_self _ _)
        have hkl : k ∉ idsList cs := fun h => hk (List.mem_cons_of_mem _ h)
        unfold getNode
        rw [ite_selectNode_nodes, ite_selectNode_heap]
        show (alookup (adelete s2.nodes i) k).bind _ = _
        rw [alookup_adelete, if_neg hki]
        have hF2k := F2 k hkl hki
        cases hak : alookup s2.nodes k with
        | none =>
          unfold getNode at hF2k
          rw [hak] at hF2k
          exact hF2k ▸ rfl
        | some rk =>
          have hrkpref : rk ≠ pref := by
            have h1 : alookup s2.nodes p = some pref := by rw [halp2, halp]
            exact fun h => hkp (False.elim ((alookup_ref_ne hrefs2 hak h1 hkp) h))
          unfold getNode at hF2k
          rw [hak] at hF2k
          show (heapModify s2.heap pref _)[rk]? = _
          rw [heapModify_get_ne _ _ _ _ (fun h => hrkpref h.symm)]
          exact hF2k
      · intro np hnp
        have hg2 : getNode s2 p = some np := by rw [hgp2, hnp]
        have halp3 : alookup s2.nodes p = some pref := by rw [halp2, halp]
        have hheap2 : s2.heap[pref]? = some np := by
          unfold getNode at hg2
          rw [halp3] at hg2
          exact hg2
        unfold getNode
        rw [ite_selectNode_nodes, ite_selectNode_heap]
        show (alookup (adelete s2.nodes i) p).bind _ = _
        rw [alookup_adelete, if_neg hpi]
        rw [halp3]
        show (heapModify s2.heap pref _)[pref]? = _
        rw [heapModify_get_self _ hheap2]
      · rw [ite_selectNode_heap]
        show (heapModify s2.heap pref _).length = _
        rw [heapModify_length]
        exact F4
      · rw [ite_selectNode_selectedNode]
        show (if (s2.selectedNode = some i) then some p else s2.selectedNode) = _
        rw [F5]
        cases hselS : s.selectedNode with
        | none => simp
        | some q =>
          dsimp only
          by_cases hqm : q ∈ idsList cs
          · rw [if_pos hqm]
            simp [List.mem_cons, hqm]
          · rw [if_neg hqm]
            by_cases hqi : q = i
            · simp [hqi]
            · have : q ∉ i :: idsList cs := by
                simp [List.mem_cons, hqi, hqm]
              simp [Option.some.injEq, hqi, this]
      · rw [ite_selectNode_history]
        show s2.history.length = _
        rw [F6, hlen]
        omega
      · rw [ite_selectNode_nodeCounter]
        exact F7

/-- Effect of the recursive child-deletion fold on a store that realises
the forest `cs` of siblings under parent `pid`. -/
theorem deleteNode_forest_spec (fuel : ℕ) (cs : List RT) (s : AppState) (l pid : ℕ)
    (hrep : repList (getNode s) pid l cs = true)
    (hl : l ≠ 0)
    (hids : (idsList cs).Nodup)
    (hkeys : (s.nodes.map Prod.fst).Nodup)
    (hrefs : (s.nodes.map Prod.snd).Nodup)
    (hp : pid ∉ idsList cs)
    (hfuel : heightList cs ≤ fuel)
    (hhist : s.history.length ≤ 50) :
    (List.foldl (fun s c => deleteNode fuel s c) s (List.map RT.rootId cs)).nodes
        = s.nodes.filter (fun q => q.1 ∉ idsList cs) ∧
    (∀ k, k ∉ idsList cs → k ≠ pid →
      getNode (List.foldl (fun s c => deleteNode fuel s c) s (List.map RT.rootId cs)) k
        = getNode s k) ∧
    (∀ np, getNode s pid = some np →
      getNode (List.foldl (fun s c => deleteNode fuel s c) s (List.map RT.rootId cs)) pid
        = some { np with children := np.children.filter (fun j => j ∉ List.map RT.rootId cs) }) ∧
    (List.foldl (fun s c => deleteNode fuel s c) s (List.map RT.rootId cs)).heap.length
        = s.heap.length ∧
    (List.foldl (fun s c => deleteNode fuel s c) s (List.map RT.rootId cs)).selectedNode
      = (match s.selectedNode with
         | some q => if q ∈ idsList cs then some pid else some q
         | none => none) ∧
    (List.foldl (fun s c => deleteNode fuel s c) s (List.map RT.rootId cs)).history.length
        = min (s.history.length + (idsList cs).length) 50 ∧
    (List.foldl (fun s c => deleteNode fuel s c) s (List.map RT.rootId cs)).nodeCounter
        = s.nodeCounter := by
  match cs with
  | [] =>
    dsimp only [List.map_nil, List.foldl_nil, idsList]
    refine ⟨?_, ?_, ?_, rfl, ?_, ?_, rfl⟩
    · exact (filter_keys_nil _).symm
    · intro k _ _
      rfl
    · intro np hnp
      rw [hnp, filter_not_mem_nil]
    · cases hselS : s.selectedNode with
      | none => rfl
      | some q => simp
    · simp only [List.length_nil]
      omega
  | c :: rest =>
    obtain ⟨hc, hrest⟩ := (repList_cons_iff _ _ _ _ _).mp hrep
    have hidsapp : idsList (c :: rest) = c.ids ++ idsList rest := rfl
    have hnodup := hidsapp ▸ hids
    obtain ⟨hidc, hidr, hdisj⟩ := List.nodup_append.mp hnodup
    have hpc : pid ∉ c.ids := fun h => hp (by rw [hidsapp]; exact List.mem_append_left _ h)
    have hpr : pid ∉ idsList rest := fun h => hp (by rw [hidsapp]; exact List.mem_append_right _ h)
    have hhl : heightList (c :: rest) = max c.height (heightList rest) := rfl
    obtain ⟨T1, T2, T3, T4, T5, T6, T7⟩ :=
      deleteNode_tree_spec fuel c s l pid hc hl hidc hkeys hrefs hpc (by omega) hhist
    set sc := deleteNode fuel s c.rootId with hscdef
    have hkeys2 : (sc.nodes.map Prod.fst).Nodup := by
      rw [T1]
      exact List.Nodup.sublist (List.Sublist.map _ (List.filter_sublist _)) hkeys
    have hrefs2 : (sc.nodes.map Prod.snd).Nodup := by
      rw [T1]
      exact List.Nodup.sublist (List.Sublist.map _ (List.filter_sublist _)) hrefs
    have hrest2 : repList (getNode sc) pid l rest = true := by
      rw [repList_congr (getNode sc) (getNode s) pid l rest ?_]
      · exact hrest
      · intro k hk
        exact T2 k (fun hkc => (hdisj hkc) hk) (fun hkp => hpr (hkp ▸ hk))
    have hhist2 : sc.history.length ≤ 50 := by
      rw [T6]
      omega
    obtain ⟨R1, R2, R3, R4, R5, R6, R7⟩ :=
      deleteNode_forest_spec fuel rest sc l pid hrest2 hl hidr hkeys2 hrefs2 hpr
        (by omega) hhist2
    rw [hidsapp, List.map_cons, List.foldl_cons]
    refine ⟨?_, ?_, ?_, ?_, ?_, ?_, ?_⟩
    · rw [R1, T1, filter_keys_filter_keys]
    · intro k hk hkp
      have hk1 : k ∉ c.ids := fun h => hk (List.mem_append_left _ h)
      have hk2 : k ∉ idsList rest := fun h => hk (List.mem_append_right _ h)
      rw [R2 k hk2 hkp, T2 k hk1 hkp]
    · intro np hnp
      have h1 := T3 np hnp
      have h2 := R3 _ h1
      rw [h2]
      have : (np.children.filter (fun j => j ≠ c.rootId)).filter
            (fun j => j ∉ List.map RT.rootId rest)
          = np.children.filter (fun j => j ∉ c.rootId :: List.map RT.rootId rest) :=
        filter_ne_filter_not_mem _ _ _
      rw [this]
    · rw [R4, T4]
    · rw [R5, T5]
      cases hselS : s.selectedNode with
      | none => rfl
      | some q =>
        dsimp only
        by_cases hq1 : q ∈ c.ids
        · rw [if_pos hq1]
          have hq2 : q ∈ c.ids ++ idsList rest := List.mem_append_left _ hq1
          rw [if_pos hq2]
          dsimp only
          rw [if_neg hpr]
        · rw [if_neg hq1]
          dsimp only
          by_cases hq3 : q ∈ idsList rest
          · rw [if_pos hq3, if_pos (List.mem_append_right _ hq3)]
          · rw [if_neg hq3, if_neg (by simp [List.mem_append, hq1, hq3])]
    · rw [R6, T6]
      rw [List.length_append]
      omega
    · rw [R7, T7]

end

end MindMap

namespace MindMap

theorem rootId_mem_idsList {c : RT} {cs : List RT} (h : c ∈ cs) : c.rootId ∈ idsList cs := by
  induction cs with
  | nil => cases h
  | cons a rest ih =>
    show c.rootId ∈ a.ids ++ idsList rest
    rcases List.mem_cons.mp h with rfl | h'
    · exact List.mem_append_left _ (rootId_mem_ids c)
    · exact List.mem_append_right _ (ih h')

mutual

/-- Within a realised subtree, every node's children stay inside the
subtree's id set. -/
theorem repB_closed (g : ℕ → Option Node) (par : Option ℕ) (l : ℕ) (t : RT)
    (hrep : repB g par l t = true) :
    ∀ q ∈ t.ids, ∃ nq, g q = some nq ∧ ∀ j ∈ nq.children, j ∈ t.ids := by
  match t with
  | RT.node i cs =>
    obtain ⟨n, hgi, hnid, hnlv, hnpar, hnch, hcs⟩ := (repB_node_iff _ _ _ _ _).mp hrep
    intro q hq
    rcases (mem_ids_node q i cs).mp hq with rfl | hq'
    · refine ⟨n, hgi, ?_⟩
      intro j hj
      rw [hnch] at hj
      obtain ⟨c, hc, rfl⟩ := List.mem_map.mp hj
      exact (mem_ids_node _ _ _).mpr (Or.inr (rootId_mem_idsList hc))
    · obtain ⟨nq, hnq, hsub⟩ := repList_closed g i (l + 1) cs hcs q hq'
      exact ⟨nq, hnq, fun j hj => (mem_ids_node _ _ _).mpr (Or.inr (hsub j hj))⟩

/-- Within a realised forest, every node's children stay inside the
forest's id set. -/
theorem repList_closed (g : ℕ → Option Node) (i l : ℕ) (cs : List RT)
    (hrep : repList g i l cs = true) :
    ∀ q ∈ idsList cs, ∃ nq, g q = some nq ∧ ∀ j ∈ nq.children, j ∈ idsList cs := by
  match cs with
  | [] => intro q hq; cases hq
  | c :: rest =>
    obtain ⟨hc, hrest⟩ := (repList_cons_iff _ _ _ _ _).mp hrep
    intro q hq
    rcases (mem_idsList_cons q c rest).mp hq with hq' | hq'
    · obtain ⟨nq, hnq, hsub⟩ := repB_closed g (some i) l c hc q hq'
      exact ⟨nq, hnq, fun j hj =>
        (mem_idsList_cons _ _ _).mpr (Or.inl (hsub j hj))⟩
    · obtain ⟨nq, hnq, hsub⟩ := repList_closed g i l rest hrest q hq'
      exact ⟨nq, hnq, fun j hj =>
        (mem_idsList_cons _ _ _).mpr (Or.inr (hsub j hj))⟩

end

/-- Executable form of the store-wide linkage invariant: every live
node's parent pointer resolves to a live node whose `children` list
contains it. -/
def parentLinkedB (s : AppState) : Bool :=
  s.nodes.all (fun pr =>
    match s.heap[pr.2]? with
    | none => true
    | some nd =>
      match nd.parent with
      | none => true
      | some q =>
        match getNode s q with
        | none => false
        | some m => pr.1 ∈ m.children)

theorem parentLinkedB_spec {s : AppState} (h : parentLinkedB s = true) :
    ∀ k nd, getNode s k = some nd → ∀ q, nd.parent = some q →
      ∃ m, getNode s q = some m ∧ k ∈ m.children := by
  intro k nd hget q hq
  unfold getNode at hget
  cases hak : alookup s.nodes k with
  | none => rw [hak] at hget; cases hget
  | some r =>
    rw [hak] at hget
    have hmem : (k, r) ∈ s.nodes := alookup_mem hak
    have hall := List.all_eq_true.mp h _ hmem
    dsimp only at hall
    rw [show s.heap[r]? = some nd from hget] at hall
    dsimp only at hall
    rw [hq] at hall
    dsimp only at hall
    cases hgq : getNode s q with
    | none => rw [hgq] at hall; cases hall
    | some m =>
      rw [hgq] at hall
      dsimp only at hall
      exact ⟨m, rfl, by simpa using hall⟩

/-- `deleteNode` on the root is a no-op. -/
theorem deleteNode_root_noop (fuel : ℕ) (s : AppState) (k : ℕ) (n : Node)
    (hg : getNode s k = some n) (hlv : n.level = 0) : deleteNode fuel s k = s := by
  cases fuel with
  | zero => rfl
  | succ fuel =>
    unfold deleteNode
    rw [hg]
    dsimp only
    rw [if_pos hlv]

/-- A nonempty history makes `undo` pop exactly one entry. -/
theorem undo_history_length (s : AppState) (h : s.history ≠ []) :
    (undo s).history.length = s.history.length - 1 := by
  unfold undo
  cases hl : s.history.getLast? with
  | none =>
    exact absurd (List.getLast?_eq_none_iff.mp hl) h
  | some prev =>
    dsimp only
    split
    · split
      · simp [selectNode, List.length_dropLast]
      · simp [List.length_dropLast]
    · simp [List.length_dropLast]

end MindMap

namespace MindMap

/-- Claim C3: deletion cascades.  First part: `deleteNode` on the root
(level 0) is a no-op.  Second part: for a non-root node realising
subtree description `t` under a live parent `p` in a well-formed store,
`deleteNode` removes every id of the subtree from the map, removes the
node's id from its parent's `children`, leaves no surviving node whose
parent pointer references a removed node, and moves the selection to the
former parent when the deleted node was selected. -/
theorem deleteNode_cascades :
    (∀ (fuel : ℕ) (s : AppState) (k : ℕ) (n : Node),
      getNode s k = some n → n.level = 0 → deleteNode fuel s k = s) ∧
    (∀ (fuel : ℕ) (t : RT) (s : AppState) (l p : ℕ) (np : Node),
      repB (getNode s) (some p) l t = true →
      l ≠ 0 →
      t.ids.Nodup →
      (s.nodes.map Prod.fst).Nodup →
      (s.nodes.map Prod.snd).Nodup →
      p ∉ t.ids →
      t.height ≤ fuel →
      s.history.length ≤ 50 →
      parentLinkedB s = true →
      getNode s p = some np →
      ((∀ k ∈ t.ids, getNode (deleteNode fuel s t.rootId) k = none) ∧
       getNode (deleteNode fuel s t.rootId) p
         = some { np with children := np.children.filter (fun j => j ≠ t.rootId) } ∧
       (∀ k nd, getNode (deleteNode fuel s t.rootId) k = some nd →
         ∀ q, nd.parent = some q →
           (getNode (deleteNode fuel s t.rootId) q).isSome = true) ∧
       (s.selectedNode = some t.rootId →
         (deleteNode fuel s t.rootId).selectedNode = some p))) := by
  constructor
  · exact deleteNode_root_noop
  · intro fuel t s l p np hrep hl hids hkeys hrefs hp hfuel hhist hlink hnp
    obtain ⟨S1, S2, S3, S4, S5, S6, S7⟩ :=
      deleteNode_tree_spec fuel t s l p hrep hl hids hkeys hrefs hp hfuel hhist
    have hgone : ∀ k ∈ t.ids, getNode (deleteNode fuel s t.rootId) k = none := by
      intro k hk
      unfold getNode
      rw [S1, alookup_filter_keys, if_pos hk]
      rfl
    have hpar := S3 np hnp
    refine ⟨hgone, hpar, ?_, ?_⟩
    · intro k nd hget q hq
      have hknot : k ∉ t.ids := by
        intro hk
        rw [hgone k hk] at hget
        cases hget
      by_cases hkp : k = p
      · subst hkp
        have hnd : { np with children := np.children.filter (fun j => j ≠ t.rootId) } = nd := by
          rw [hpar] at hget
          exact Option.some.inj hget
        have hq' : np.parent = some q := by
          rw [← hnd] at hq
          exact hq
        obtain ⟨m, hgq, hpm⟩ := parentLinkedB_spec hlink k np hnp q hq'
        by_cases hqt : q ∈ t.ids
        · obtain ⟨nq, hnq, hsub⟩ := repB_closed (getNode s) (some k) l t hrep q hqt
          have hm : m = nq := Option.some.inj (hgq.symm.trans hnq)
          exact absurd (hsub k (hm ▸ hpm)) hp
        · by_cases hqp : q = k
          · subst hqp
            rw [hpar]
            rfl
          · rw [S2 q hqt hqp, hgq]
            rfl
      · have hgk : getNode s k = some nd := by
          rw [← S2 k hknot hkp]
          exact hget
        obtain ⟨m, hgq, hkm⟩ := parentLinkedB_spec hlink k nd hgk q hq
        by_cases hqt : q ∈ t.ids
        · obtain ⟨nq, hnq, hsub⟩ := repB_closed (getNode s) (some p) l t hrep q hqt
          have hm : m = nq := Option.some.inj (hgq.symm.trans hnq)
          exact absurd (hsub k (hm ▸ hkm)) hknot
        · by_cases hqp : q = p
          · subst hqp
            rw [hpar]
            rfl
          · rw [S2 q hqt hqp, hgq]
            rfl
    · intro hsel
      rw [S5, hsel]
      dsimp only
      rw [if_pos (rootId_mem_ids t)]

/-- The witness store: root id 1 with child id 2 and grandchild id 3. -/
def wRoot : Node :=
  { id := 1, text := "メインアイデア", level := 0, parent := none,
    children := [2], x := 0, y := 0, color := none }

/-- The witness child node (id 2), parent of id 3. -/
def wChild : Node :=
  { id := 2, text := "ノード", level := 1, parent := some 1,
    children := [3], x := 0, y := 0, color := some "white" }

/-- The witness grandchild node (id 3). -/
def wGrand : Node :=
  { id := 3, text := "ノード", level := 2, parent := some 2,
    children := [], x := 0, y := 0, color := some "white" }

/-- The witness application state holding the three-node chain. -/
def wState : AppState :=
  { heap := [wRoot, wChild, wGrand], nodes := [(1, 0), (2, 1), (3, 2)],
    selectedNode := some 2, nodeCounter := 3, history := [] }

/-- The subtree description of node 2 with its child 3. -/
def wTree : RT := RT.node 2 [RT.node 3 []]

/-- Witness for `deleteNode_cascades` on the concrete three-node store. -/
theorem deleteNode_cascades_witness :
    (getNode wState 1 = some wRoot ∧ wRoot.level = 0 ∧ deleteNode 5 wState 1 = wState) ∧
    ((∀ k ∈ wTree.ids, getNode (deleteNode 5 wState wTree.rootId) k = none) ∧
     getNode (deleteNode 5 wState wTree.rootId) 1
       = some { wRoot with children := wRoot.children.filter (fun j => j ≠ wTree.rootId) } ∧
     (∀ k nd, getNode (deleteNode 5 wState wTree.rootId) k = some nd →
       ∀ q, nd.parent = some q →
         (getNode (deleteNode 5 wState wTree.rootId) q).isSome = true) ∧
     (wState.selectedNode = some wTree.rootId →
       (deleteNode 5 wState wTree.rootId).selectedNode = some 1)) :=
  ⟨⟨rfl, rfl, deleteNode_cascades.1 5 wState 1 wRoot rfl rfl⟩,
   deleteNode_cascades.2 5 wTree wState 1 1 wRoot (by decide) (by decide) (by decide)
     (by decide) (by decide) (by decide) (by decide) (by decide) (by decide) rfl⟩

/-- Claim C10: a `deleteNode` on a subtree with `k` proper descendants
(so `k + 1 = t.ids.length` removed nodes) calls `saveToHistory` once per
removed node: within capacity the stack grows by exactly `t.ids.length`
entries, and a single `undo` pops only the most recent of them, leaving
the `k` later intermediate snapshots above the pre-command stack. -/
theorem deleteNode_history_per_node (fuel : ℕ) (t : RT) (s : AppState) (l p : ℕ)
    (hrep : repB (getNode s) (some p) l t = true)
    (hl : l ≠ 0)
    (hids : t.ids.Nodup)
    (hkeys : (s.nodes.map Prod.fst).Nodup)
    (hrefs : (s.nodes.map Prod.snd).Nodup)
    (hp : p ∉ t.ids)
    (hfuel : t.height ≤ fuel)
    (hcap : s.history.length + t.ids.length ≤ 50) :
    (deleteNode fuel s t.rootId).nodes = s.nodes.filter (fun q => q.1 ∉ t.ids) ∧
    (deleteNode fuel s t.rootId).history.length = s.history.length + t.ids.length ∧
    1 ≤ t.ids.length ∧
    (undo (deleteNode fuel s t.rootId)).history.length
      = s.history.length + (t.ids.length - 1) := by
  have hids1 : 0 < t.ids.length :=
    List.length_pos.mpr (List.ne_nil_of_mem (rootId_mem_ids t))
  obtain ⟨S1, _, _, _, _, S6, _⟩ :=
    deleteNode_tree_spec fuel t s l p hrep hl hids hkeys hrefs hp hfuel (by omega)
  have hlen : (deleteNode fuel s t.rootId).history.length
      = s.history.length + t.ids.length := by
    rw [S6]
    omega
  have hne : (deleteNode fuel s t.rootId).history ≠ [] := by
    intro h
    rw [h] at hlen
    simp only [List.length_nil] at hlen
    omega
  refine ⟨S1, hlen, by omega, ?_⟩
  rw [undo_history_length _ hne, hlen]
  omega

/-- Witness for `deleteNode_history_per_node` on the three-node store:
deleting node 2 (one descendant, node 3) pushes two entries; one undo
leaves one of them. -/
theorem deleteNode_history_per_node_witness :
    (deleteNode 5 wState wTree.rootId).nodes
        = wState.nodes.filter (fun q => q.1 ∉ wTree.ids) ∧
    (deleteNode 5 wState wTree.rootId).history.length
        = wState.history.length + wTree.ids.length ∧
    1 ≤ wTree.ids.length ∧
    (undo (deleteNode 5 wState wTree.rootId)).history.length
        = wState.history.length + (wTree.ids.length - 1) :=
  deleteNode_history_per_node 5 wTree wState 1 1 (by decide) (by decide) (by decide)
    (by decide) (by decide) (by decide) (by decide) (by decide)

end MindMap

namespace Layout

open MindMap (Node alookup)

/-- The layout engine's view of `this.nodes`: an insertion-ordered
association list from ids to node values.  The engine reads and writes
nodes only through the map, so for well-formed stores (entry key =
node id, keys distinct) this value semantics coincides with the object
mutation of the source. -/
abbrev LState := List (ℕ × MindMap.Node)

/-- Mutate the node object with id `k` in place. -/
def lset (m : LState) (k : ℕ) (f : Node → Node) : LState :=
  m.map (fun p => if p.1 = k then (p.1, f p.2) else p)

/-- Write the (already mutated) child objects back into the map; in the
source this is implicit object identity. -/
def writeBack (st : LState) (placed : List Node) : LState :=
  placed.foldl (fun m c => lset m c.id (fun _ => c)) st

/-- Modify the element at position `i` of a list (object mutation inside
a JavaScript array). -/
def listModify {α : Type} : List α → ℕ → (α → α) → List α
  | [], _, _ => []
  | a :: rest, 0, f => f a :: rest
  | a :: rest, i + 1, f => a :: listModify rest i f

/-- `Math.max(...)` over a nonempty list (the source only applies it to
nonempty child arrays). -/
def qmax : List ℚ → ℚ
  | [] => 0
  | x :: xs => xs.foldl max x

/-- `Math.min(...)` over a nonempty list. -/
def qmin : List ℚ → ℚ
  | [] => 0
  | x :: xs => xs.foldl min x

/-- `layoutRootChildren`: the root's children are split by index parity
(even index to the right, odd to the left) and each side is stacked
vertically, centred on 0, with spacing `max(120, 60 + 40)`; horizontal
offset is the base distance 320. -/
def layoutRootChildren (children : List Node) : List Node :=
  let baseDistance : ℚ := 320
  let minVerticalSpacing : ℚ := 120
  let nodeHeight : ℚ := 60
  let verticalSpacing : ℚ := max minVerticalSpacing (nodeHeight + 40)
  let idx := List.range children.length
  let rightIdx := idx.filter (fun i => i % 2 = 0)
  let leftIdx := idx.filter (fun i => i % 2 ≠ 0)
  let afterRight := rightIdx.enum.foldl (fun cs ri =>
    listModify cs ri.2 (fun c =>
      { c with x := baseDistance,
               y := ((ri.1 : ℚ) - ((rightIdx.length : ℚ) - 1) / 2) * verticalSpacing })) children
  leftIdx.enum.foldl (fun cs ri =>
    listModify cs ri.2 (fun c =>
      { c with x := -baseDistance,
               y := ((ri.1 : ℚ) - ((leftIdx.length : ℚ) - 1) / 2) * verticalSpacing })) afterRight

/-- `calculateRequiredSpace`: room reserved against the sibling with the
largest fan-out. -/
def calculateRequiredSpace (st : LState) (parentNode : Node) (childrenCount : ℕ) : ℚ :=
  match parentNode.parent with
  | none => 200
  | some gp =>
    match alookup st gp with
    | none => 200
    | some grandParent =>
      let siblings := (grandParent.children.filterMap (alookup st)).filter
        (fun nd => nd.id ≠ parentNode.id)
      let maxSiblingChildrenCount := siblings.foldl
        (fun acc sibling =>
          if acc < sibling.children.length then sibling.children.length else acc) 0
      let baseSpacing : ℚ := 120
      let additionalSpacing : ℚ := (max maxSiblingChildrenCount childrenCount : ℕ) * 20
      baseSpacing + additionalSpacing

/-- `adjustForSiblingConflicts`: push the freshly placed children away
from one sibling's children block, by half the missing gap. -/
def adjustForSiblingConflicts (parentNode : Node) (children : List Node)
    (siblingNode : Node) (siblingChildren : List Node) : List Node :=
  let minGap : ℚ := 80
  if parentNode.y < siblingNode.y then
    let maxChildY := qmax (children.map (fun c => c.y))
    let minSiblingChildY := qmin (siblingChildren.map (fun c => c.y))
    if minSiblingChildY < maxChildY + minGap then
      let adjustment := (maxChildY + minGap) - minSiblingChildY
      children.map (fun c => { c with y := c.y - adjustment / 2 })
    else children
  else
    let minChildY := qmin (children.map (fun c => c.y))
    let maxSiblingChildY := qmax (siblingChildren.map (fun c => c.y))
    if minChildY - minGap < maxSiblingChildY then
      let adjustment := maxSiblingChildY + minGap - minChildY
      children.map (fun c => { c with y := c.y + adjustment / 2 })
    else children

/-- `avoidIntersections`: walk the parent's siblings (in order) and
adjust the children block against each sibling's children.  Sibling
children are read from the map, which at this point still holds their
coordinates from before the current placement pass. -/
def avoidIntersections (st : LState) (parentNode : Node) (children : List Node) : List Node :=
  match parentNode.parent with
  | none => children
  | some gp =>
    if children.isEmpty then children else
    match alookup st gp with
    | none => children
    | some grandParent =>
      let siblings := (grandParent.children.filterMap (alookup st)).filter
        (fun nd => nd.id ≠ parentNode.id)
      siblings.foldl (fun ch sibling =>
        let siblingChildren := sibling.children.filterMap (alookup st)
        if siblingChildren.isEmpty then ch
        else adjustForSiblingConflicts parentNode ch sibling siblingChildren) children

/-- `layoutBranchChildrenNoIntersection`: children of a non-root parent
go one step (280) further in the parent's own direction relative to its
grandparent, stacked vertically centred on the parent's y. -/
def layoutBranchChildrenNoIntersection (st : LState) (parentNode : Node)
    (children : List Node) : List Node :=
  let baseDistance : ℚ := 280
  let minVerticalSpacing : ℚ := 120
  let direction : ℚ :=
    match parentNode.parent with
    | none => 1
    | some gp =>
      match alookup st gp with
      | none => 1
      | some grandParent => if grandParent.x < parentNode.x then 1 else -1
  let requiredSpace := calculateRequiredSpace st parentNode children.length
  let verticalSpacing := max minVerticalSpacing
    (requiredSpace / max ((children.length : ℚ) - 1) 1)
  let totalHeight := ((children.length : ℚ) - 1) * verticalSpacing
  let startY := parentNode.y - totalHeight / 2
  let placed := children.enum.map (fun ic =>
    { ic.2 with x := parentNode.x + baseDistance * direction,
                y := startY + (ic.1 : ℚ) * verticalSpacing })
  avoidIntersections st parentNode placed

/-- `layoutChildrenMindMeisterStyle` (Phase A): place the children of
`pid`, write them back, then recurse into each child in order.  The
JavaScript recursion is unbounded over the object graph; `fuel` bounds
the depth and any value at least the tree height reproduces the source
behaviour. -/
def layoutChildrenMindMeisterStyle : ℕ → LState → ℕ → LState
  | 0, st, _ => st
  | fuel + 1, st, pid =>
    match alookup st pid with
    | none => st
    | some parentNode =>
      let children := parentNode.children.filterMap (alookup st)
      if children.isEmpty then st else
      let placed :=
        if parentNode.level = 0 then layoutRootChildren children
        else layoutBranchChildrenNoIntersection st parentNode children
      let st := writeBack st placed
      placed.foldl (fun s c => layoutChildrenMindMeisterStyle fuel s c.id) st

/-- The node-box dimensions used by Phase B: the sampled size floored at
140 × 50, with fixed gaps 30 / 25 (`getActualNodeDimensions`). -/
structure Dimensions where
  width : ℚ
  height : ℚ
  minGapX : ℚ
  minGapY : ℚ
deriving Repr, DecidableEq

/-- `getActualNodeDimensions` on a sample measured `mw × mh`. -/
def getActualNodeDimensions (mw mh : ℚ) : Dimensions :=
  { width := max mw 140, height := max mh 50, minGapX := 30, minGapY := 25 }

/-- The relationship classes of `determineAdjustmentStrategy`. -/
inductive Strategy where
  | parentChild : Strategy
  | siblings : Strategy
  | distantLevels : Strategy
  | general : Strategy
deriving Repr, DecidableEq

/-- `determineAdjustmentStrategy`, in precedence order. -/
def determineAdjustmentStrategy (nodeA nodeB : Node) : Strategy :=
  if nodeA.parent = some nodeB.id ∨ nodeB.parent = some nodeA.id then .parentChild
  else if nodeA.parent = nodeB.parent ∧ nodeA.parent ≠ none then .siblings
  else if 1 < ((nodeA.level : ℤ) - (nodeB.level : ℤ)).natAbs then .distantLevels
  else .general

/-- `adjustParentChildOverlap`: push the child away from the parent
along its current vertical side by 1.5 times the clearance. -/
def adjustParentChildOverlap (st : LState) (ida idb : ℕ) (requiredDistance : ℚ) : LState :=
  match alookup st ida, alookup st idb with
  | some nodeA, some nodeB =>
    let isAParent := nodeA.level < nodeB.level
    let parent := if isAParent then nodeA else nodeB
    let childId := if isAParent then idb else ida
    let child := if isAParent then nodeB else nodeA
    let direction : ℚ := if parent.y < child.y then 1 else -1
    lset st childId (fun c => { c with y := parent.y + direction * requiredDistance * 1.5 })
  | _, _ => st

/-- `adjustSiblingOverlap`: pull the two apart symmetrically around
their midpoint. -/
def adjustSiblingOverlap (st : LState) (ida idb : ℕ) (requiredDistance : ℚ) : LState :=
  match alookup st ida, alookup st idb with
  | some nodeA, some nodeB =>
    let midY := (nodeA.y + nodeB.y) / 2
    let adjustment := requiredDistance / 2
    if nodeA.y < nodeB.y then
      lset (lset st ida (fun c => { c with y := midY - adjustment })) idb
        (fun c => { c with y := midY + adjustment })
    else
      lset (lset st ida (fun c => { c with y := midY + adjustment })) idb
        (fun c => { c with y := midY - adjustment })
  | _, _ => st

/-- `adjustDistantLevelOverlap`: move only the deeper node outward along
its existing sign of y. -/
def adjustDistantLevelOverlap (st : LState) (ida idb : ℕ) (requiredDistance : ℚ) : LState :=
  match alookup st ida, alookup st idb with
  | some nodeA, some nodeB =>
    let deeperId := if nodeB.level < nodeA.level then ida else idb
    let deeper := if nodeB.level < nodeA.level then nodeA else nodeB
    let direction : ℚ := if 0 < deeper.y then 1 else -1
    lset st deeperId (fun c => { c with y := deeper.y + direction * requiredDistance })
  | _, _ => st

/-- `adjustGeneralOverlap`: symmetric push proportional to the remaining
overlap plus a fixed slack. -/
def adjustGeneralOverlap (st : LState) (ida idb : ℕ) (requiredDistance : ℚ) : LState :=
  match alookup st ida, alookup st idb with
  | some nodeA, some nodeB =>
    let currentDistance := |nodeA.y - nodeB.y|
    let adjustment := (requiredDistance - currentDistance) / 2 + 5
    if nodeA.y < nodeB.y then
      lset (lset st ida (fun c => { c with y := c.y - adjustment })) idb
        (fun c => { c with y := c.y + adjustment })
    else
      lset (lset st ida (fun c => { c with y := c.y + adjustment })) idb
        (fun c => { c with y := c.y - adjustment })
  | _, _ => st

/-- `applyOverlapAdjustment`: dispatch on the relationship class with
the slackened vertical clearance. -/
def applyOverlapAdjustment (dims : Dimensions) (st : LState) (ida idb : ℕ) : LState :=
  let requiredDistanceY := dims.height + dims.minGapY + 10
  match alookup st ida, alookup st idb with
  | some nodeA, some nodeB =>
    match determineAdjustmentStrategy nodeA nodeB with
    | .parentChild => adjustParentChildOverlap st ida idb requiredDistanceY
    | .siblings => adjustSiblingOverlap st ida idb requiredDistanceY
    | .distantLevels => adjustDistantLevelOverlap st ida idb requiredDistanceY
    | .general => adjustGeneralOverlap st ida idb requiredDistanceY
  | _, _ => st

/-- `resolveNodePairOverlap`: the axis-aligned box test, returning the
adjusted state and whether an overlap was found. -/
def resolveNodePairOverlap (dims : Dimensions) (st : LState) (ida idb : ℕ) : LState × Bool :=
  match alookup st ida, alookup st idb with
  | some nodeA, some nodeB =>
    let dx := |nodeA.x - nodeB.x|
    let dy := |nodeA.y - nodeB.y|
    let requiredDistanceX := dims.width / 2 + dims.minGapX
    let requiredDistanceY := dims.height + dims.minGapY
    if dx < requiredDistanceX ∧ dy < requiredDistanceY then
      (applyOverlapAdjustment dims st ida idb, true)
    else (st, false)
  | _, _ => (st, false)

/-- One full inner double loop (`for i; for j > i`) over the captured id
array, threading the state and the overlap flag. -/
def overlapPassAux (dims : Dimensions) : List ℕ → LState → Bool → LState × Bool
  | [], st, f => (st, f)
  | i :: rest, st, f =>
    let inner := rest.foldl (fun acc j =>
      let r := resolveNodePairOverlap dims acc.1 i j
      (r.1, acc.2 || r.2)) (st, f)
    overlapPassAux dims rest inner.1 inner.2

/-- The bounded `while` loop of `resolveOverlapsInLevel` /
`resolveGlobalOverlaps`: repeat passes until a clean pass or the
iteration budget runs out. -/
def resolveLoop (dims : Dimensions) (ids : List ℕ) : ℕ → LState → LState
  | 0, st => st
  | n + 1, st =>
    let r := overlapPassAux dims ids st false
    if r.2 then resolveLoop dims ids n r.1 else r.1

/-- Levels in order of first appearance (the key order of the
`nodesByLevel` map built by insertion). -/
def firstDedupAux : List ℕ → List ℕ → List ℕ
  | [], _ => []
  | a :: rest, seen =>
    if a ∈ seen then firstDedupAux rest seen else a :: firstDedupAux rest (a :: seen)

/-- First-appearance deduplication. -/
def firstDedup (l : List ℕ) : List ℕ := firstDedupAux l []

/-- `resolveOverlapsByLevel`: group ids by level (groups captured before
any resolution), then run the bounded loop (15 passes) within each group
of more than one node, in level-first-appearance order. -/
def resolveOverlapsByLevel (dims : Dimensions) (st : LState) : LState :=
  let levels := firstDedup (st.map (fun p => p.2.level))
  let groups := levels.map (fun l => (st.filter (fun p => p.2.level = l)).map Prod.fst)
  groups.foldl (fun st ids => if 1 < ids.length then resolveLoop dims ids 15 st else st) st

/-- `resolveGlobalOverlaps`: the bounded loop (20 passes) over all ids. -/
def resolveGlobalOverlaps (dims : Dimensions) (st : LState) : LState :=
  resolveLoop dims (st.map Prod.fst) 20 st

/-- `performComprehensiveOverlapResolution` (Phase B).  The final
`validateNoOverlaps` pass only logs and mutates nothing, so it is not
modelled. -/
def performComprehensiveOverlapResolution (dims : Dimensions) (st : LState) : LState :=
  resolveGlobalOverlaps dims (resolveOverlapsByLevel dims st)

/-- `updateLayout`: pin the first level-0 node of the map at the origin,
run Phase A from it, then Phase B with the measured dimensions. -/
def updateLayout (mw mh : ℚ) (st : LState) : LState :=
  match st.find? (fun p => p.2.level = 0) with
  | none => st
  | some rootEntry =>
    let st := lset st rootEntry.1 (fun n => { n with x := 0, y := 0 })
    let st := layoutChildrenMindMeisterStyle (st.length + 1) st rootEntry.1
    performComprehensiveOverlapResolution (getActualNodeDimensions mw mh) st

end Layout

namespace Layout

theorem listModify_get {α : Type} : ∀ (l : List α) (i : ℕ) (f : α → α) (j : ℕ),
    (listModify l i f)[j]? = if i = j then (l[j]?).map f else l[j]?
  | [], i, f, j => by
    unfold listModify
    split <;> simp
  | a :: rest, 0, f, 0 => by
    unfold listModify
    simp
  | a :: rest, 0, f, j + 1 => by
    unfold listModify
    simp
  | a :: rest, i + 1, f, 0 => by
    unfold listModify
    simp
  | a :: rest, i + 1, f, j + 1 => by
    unfold listModify
    have := listModify_get rest i f j
    simp only [List.getElem?_cons_succ]
    rw [this]
    by_cases h : i = j
    · rw [if_pos h, if_pos (by omega)]
    · rw [if_neg h, if_neg (by omega)]

theorem range_filter_even : ∀ n : ℕ,
    (List.range n).filter (fun i => i % 2 = 0)
      = (List.range ((n + 1) / 2)).map (fun r => 2 * r) := by
  intro n
  induction n with
  | zero => rfl
  | succ m ih =>
    rw [List.range_succ, List.filter_append, ih]
    by_cases hm : m % 2 = 0
    · have h1 : (m + 1 + 1) / 2 = (m + 1) / 2 + 1 := by omega
      have h2 : 2 * ((m + 1) / 2) = m := by omega
      rw [h1, List.range_succ, List.map_append]
      simp [hm, h2]
    · have h1 : (m + 1 + 1) / 2 = (m + 1) / 2 := by omega
      rw [h1]
      simp [hm]

theorem range_filter_odd : ∀ n : ℕ,
    (List.range n).filter (fun i => i % 2 ≠ 0)
      = (List.range (n / 2)).map (fun r => 2 * r + 1) := by
  intro n
  induction n with
  | zero => rfl
  | succ m ih =>
    rw [List.range_succ, List.filter_append, ih]
    by_cases hm : m % 2 = 0
    · have h1 : (m + 1) / 2 = m / 2 := by omega
      rw [h1]
      simp [hm]
    · have h1 : (m + 1) / 2 = m / 2 + 1 := by omega
      have h2 : 2 * (m / 2) + 1 = m := by omega
      rw [h1, List.range_succ, List.map_append]
      simp [hm, h2]
      omega

theorem enum_range_map (h : ℕ → ℕ) : ∀ k : ℕ,
    ((List.range k).map h).enum = (List.range k).map (fun r => (r, h r)) := by
  intro k
  induction k with
  | zero => rfl
  | succ m ih =>
    rw [List.range_succ, List.map_append, List.enum_append, ih, List.map_append]
    simp [List.enumFrom]

theorem foldl_modify_even_get (children : List MindMap.Node)
    (X C S : ℚ) : ∀ (k q : ℕ),
    (((List.range k).map (fun r => (r, 2 * r))).foldl
        (fun cs ri => listModify cs ri.2 (fun c =>
          { c with x := X, y := ((ri.1 : ℚ) - C) * S })) children)[q]?
      = if q % 2 = 0 ∧ q / 2 < k then
          (children[q]?).map (fun c =>
            { c with x := X, y := (((q / 2 : ℕ) : ℚ) - C) * S })
        else children[q]? := by
  intro k q
  induction k with
  | zero =>
    rw [if_neg (by omega)]
    rfl
  | succ m ih =>
    rw [List.range_succ, List.map_append, List.foldl_append]
    simp only [List.map_cons, List.map_nil, List.foldl_cons, List.foldl_nil]
    rw [listModify_get, ih]
    by_cases hq : 2 * m = q
    · rw [if_pos hq, if_neg (by omega : ¬ (q % 2 = 0 ∧ q / 2 < m)),
        if_pos (by omega : q % 2 = 0 ∧ q / 2 < m + 1)]
      have hm : q / 2 = m := by omega
      rw [hm]
    · rw [if_neg hq]
      by_cases hc : q % 2 = 0 ∧ q / 2 < m
      · rw [if_pos hc, if_pos (by omega : q % 2 = 0 ∧ q / 2 < m + 1)]
      · rw [if_neg hc, if_neg (by omega : ¬ (q % 2 = 0 ∧ q / 2 < m + 1))]

theorem foldl_modify_odd_get (children : List MindMap.Node)
    (X C S : ℚ) : ∀ (k q : ℕ),
    (((List.range k).map (fun r => (r, 2 * r + 1))).foldl
        (fun cs ri => listModify cs ri.2 (fun c =>
          { c with x := X, y := ((ri.1 : ℚ) - C) * S })) children)[q]?
      = if q % 2 = 1 ∧ q / 2 < k then
          (children[q]?).map (fun c =>
            { c with x := X, y := (((q / 2 : ℕ) : ℚ) - C) * S })
        else children[q]? := by
  intro k q
  induction k with
  | zero =>
    rw [if_neg (by omega)]
    rfl
  | succ m ih =>
    rw [List.range_succ, List.map_append, List.foldl_append]
    simp only [List.map_cons, List.map_nil, List.foldl_cons, List.foldl_nil]
    rw [listModify_get, ih]
    by_cases hq : 2 * m + 1 = q
    · rw [if_pos hq, if_neg (by omega : ¬ (q % 2 = 1 ∧ q / 2 < m)),
        if_pos (by omega : q % 2 = 1 ∧ q / 2 < m + 1)]
      have hm : q / 2 = m := by omega
      rw [hm]
    · rw [if_neg hq]
      by_cases hc : q % 2 = 1 ∧ q / 2 < m
      · rw [if_pos hc, if_pos (by omega : q % 2 = 1 ∧ q / 2 < m + 1)]
      · rw [if_neg hc, if_neg (by omega : ¬ (q % 2 = 1 ∧ q / 2 < m + 1))]

/-- Index-wise characterisation of `layoutRootChildren`: the child at
position `j` keeps all fields except its coordinates; even positions go
to `x = 320`, odd ones to `x = -320`, and each side is stacked with
spacing 120 centred on 0, ranked by `j / 2` within its side. -/
theorem layoutRootChildren_get (children : List MindMap.Node) (j : ℕ) :
    (layoutRootChildren children)[j]? = (children[j]?).map (fun c =>
      if j % 2 = 0 then
        { c with x := 320,
                 y := (((j / 2 : ℕ) : ℚ)
                   - ((((children.length + 1) / 2 : ℕ) : ℚ) - 1) / 2) * 120 }
      else
        { c with x := -320,
                 y := (((j / 2 : ℕ) : ℚ)
                   - (((children.length / 2 : ℕ) : ℚ) - 1) / 2) * 120 }) := by
  unfold layoutRootChildren
  dsimp only
  rw [range_filter_even, range_filter_odd, enum_range_map, enum_range_map,
    foldl_modify_odd_get, foldl_modify_even_get]
  have hvs : max (120 : ℚ) (60 + 40) = 120 := by norm_num
  rw [List.length_map, List.length_range, List.length_map, List.length_range, hvs]
  by_cases hj : j % 2 = 0
  · rw [if_neg (by omega : ¬ (j % 2 = 1 ∧ j / 2 < children.length / 2))]
    by_cases hlt : j / 2 < (children.length + 1) / 2
    · rw [if_pos ⟨hj, hlt⟩]
      cases children[j]? with
      | none => rfl
      | some c => simp [hj]
    · rw [if_neg (fun h => hlt h.2)]
      have hnone : children[j]? = none := by
        rw [List.getElem?_eq_none]
        omega
      rw [hnone]
      rfl
  · rw [if_neg (by omega : ¬ (j % 2 = 0 ∧ j / 2 < (children.length + 1) / 2))]
    by_cases hlt : j / 2 < children.length / 2
    · rw [if_pos ⟨by omega, hlt⟩]
      cases children[j]? with
      | none => rfl
      | some c => simp [hj]
    · rw [if_neg (fun h => hlt h.2)]
      have hnone : children[j]? = none := by
        rw [List.getElem?_eq_none]
        omega
      rw [hnone]
      rfl

end Layout

namespace Layout

/-- The four-node scenario from the spec: root `1` with children `2` then
`3` (in creation order), and `4` the only child of `2`; all coordinates
start at the origin, as after three insertions with no layout yet. -/
def mkScenNode (i l : ℕ) (par : Option ℕ) (ch : List ℕ) : MindMap.Node :=
  { id := i, text := "t", level := l, parent := par, children := ch,
    x := 0, y := 0, color := some "white" }

def scen4 : LState :=
  [(1, mkScenNode 1 0 none [2, 3]), (2, mkScenNode 2 1 (some 1) [4]),
   (3, mkScenNode 3 1 (some 1) []), (4, mkScenNode 4 2 (some 2) [])]

set_option maxRecDepth 10000 in
/-- C4: root-children alternation.  `layoutRootChildren` sends the child
at creation position `j` to `x = 320` when `j` is even and `x = -320`
when `j` is odd, stacking each side vertically centred on the root's
`y = 0` with spacing `max 120 (60 + 40)` and rank `j / 2` within the
side; in the four-node scenario the full pipeline puts node 2 at
`(320, 0)`, node 3 at `(-320, 0)` and node 4 one branch distance (280)
further right of node 2, centred on node 2's `y`. -/
theorem root_children_alternate :
    (∀ (children : List MindMap.Node) (j : ℕ),
      (layoutRootChildren children)[j]? = (children[j]?).map (fun c =>
        if j % 2 = 0 then
          { c with x := 320,
                   y := (((j / 2 : ℕ) : ℚ)
                     - ((((children.length + 1) / 2 : ℕ) : ℚ) - 1) / 2)
                     * max 120 (60 + 40) }
        else
          { c with x := -320,
                   y := (((j / 2 : ℕ) : ℚ)
                     - (((children.length / 2 : ℕ) : ℚ) - 1) / 2)
                     * max 120 (60 + 40) }))
    ∧ (MindMap.alookup (updateLayout 0 0 scen4) 2).map (fun n => (n.x, n.y))
        = some (320, 0)
    ∧ (MindMap.alookup (updateLayout 0 0 scen4) 3).map (fun n => (n.x, n.y))
        = some (-320, 0)
    ∧ (MindMap.alookup (updateLayout 0 0 scen4) 4).map (fun n => (n.x, n.y))
        = some (320 + 280, 0) := by
  refine ⟨fun children j => ?_, by with_unfolding_all decide,
    by with_unfolding_all decide, by with_unfolding_all decide⟩
  have hm : max (120 : ℚ) (60 + 40) = 120 := by norm_num
  simp only [hm]
  exact layoutRootChildren_get children j

end Layout

namespace Layout

open MindMap (Node alookup)

/-- Forget the `y` coordinate of a node (normalising it to 0).  Equality
up to `dropY` captures "same object except possibly its vertical
position": id, text, level, parent, children, colour and the horizontal
position `x` all agree. -/
def dropY (c : Node) : Node := { c with y := 0 }

/-- The store with every node's `y` forgotten. -/
def projY (st : LState) : LState := st.map (fun p => (p.1, dropY p.2))

theorem alookup_map_value {α β : Type} (g : α → β) :
    ∀ (m : List (ℕ × α)) (k : ℕ),
    alookup (m.map (fun p => (p.1, g p.2))) k = (alookup m k).map g
  | [], _ => rfl
  | p :: ps, k => by
    unfold alookup
    dsimp only [List.map_cons]
    by_cases h : p.1 = k <;> simp [h, alookup_map_value g ps k]

theorem alookup_projY (st : LState) (k : ℕ) :
    alookup (projY st) k = (alookup st k).map dropY :=
  alookup_map_value dropY st k

theorem lset_projY (m : LState) (k : ℕ) (f : Node → Node)
    (hf : ∀ c, dropY (f c) = dropY c) : projY (lset m k f) = projY m := by
  unfold projY lset
  rw [List.map_map]
  refine List.map_congr_left (fun p _ => ?_)
  by_cases h : p.1 = k <;> simp [h, hf]

theorem adjustParentChildOverlap_projY (st : LState) (ida idb : ℕ) (rd : ℚ) :
    projY (adjustParentChildOverlap st ida idb rd) = projY st := by
  unfold adjustParentChildOverlap
  split
  · exact lset_projY _ _ _ (fun c => rfl)
  · rfl

theorem adjustSiblingOverlap_projY (st : LState) (ida idb : ℕ) (rd : ℚ) :
    projY (adjustSiblingOverlap st ida idb rd) = projY st := by
  unfold adjustSiblingOverlap
  split
  · dsimp only
    split <;>
      refine (lset_projY _ _ _ ?_).trans (lset_projY _ _ _ ?_) <;> exact fun c => rfl
  · rfl

theorem adjustDistantLevelOverlap_projY (st : LState) (ida idb : ℕ) (rd : ℚ) :
    projY (adjustDistantLevelOverlap st ida idb rd) = projY st := by
  unfold adjustDistantLevelOverlap
  split
  · exact lset_projY _ _ _ (fun c => rfl)
  · rfl

theorem adjustGeneralOverlap_projY (st : LState) (ida idb : ℕ) (rd : ℚ) :
    projY (adjustGeneralOverlap st ida idb rd) = projY st := by
  unfold adjustGeneralOverlap
  split
  · dsimp only
    split <;>
      refine (lset_projY _ _ _ ?_).trans (lset_projY _ _ _ ?_) <;> exact fun c => rfl
  · rfl

theorem applyOverlapAdjustment_projY (dims : Dimensions) (st : LState) (ida idb : ℕ) :
    projY (applyOverlapAdjustment dims st ida idb) = projY st := by
  unfold applyOverlapAdjustment
  split
  · split
    · exact adjustParentChildOverlap_projY _ _ _ _
    · exact adjustSiblingOverlap_projY _ _ _ _
    · exact adjustDistantLevelOverlap_projY _ _ _ _
    · exact adjustGeneralOverlap_projY _ _ _ _
  · rfl

theorem resolveNodePairOverlap_projY (dims : Dimensions) (st : LState) (ida idb : ℕ) :
    projY (resolveNodePairOverlap dims st ida idb).1 = projY st := by
  unfold resolveNodePairOverlap
  split
  · dsimp only
    split
    · exact applyOverlapAdjustment_projY _ _ _ _
    · rfl
  · rfl

theorem overlapPass_inner_projY (dims : Dimensions) (i : ℕ) :
    ∀ (rest : List ℕ) (acc : LState × Bool),
    projY ((rest.foldl (fun acc j =>
      let r := resolveNodePairOverlap dims acc.1 i j
      (r.1, acc.2 || r.2)) acc).1) = projY acc.1
  | [], _ => rfl
  | j :: rest, acc => by
    dsimp only [List.foldl_cons]
    rw [overlapPass_inner_projY dims i rest _]
    exact resolveNodePairOverlap_projY _ _ _ _

theorem overlapPassAux_projY (dims : Dimensions) :
    ∀ (ids : List ℕ) (st : LState) (f : Bool),
    projY (overlapPassAux dims ids st f).1 = projY st
  | [], _, _ => rfl
  | i :: rest, st, f => by
    unfold overlapPassAux
    rw [overlapPassAux_projY dims rest _ _]
    exact overlapPass_inner_projY dims i rest (st, f)

theorem resolveLoop_projY (dims : Dimensions) (ids : List ℕ) :
    ∀ (n : ℕ) (st : LState), projY (resolveLoop dims ids n st) = projY st
  | 0, _ => rfl
  | n + 1, st => by
    unfold resolveLoop
    dsimp only
    split
    · rw [resolveLoop_projY dims ids n _]
      exact overlapPassAux_projY dims ids st false
    · exact overlapPassAux_projY dims ids st false

theorem foldl_projY {β : Type} (F : LState → β → LState)
    (h : ∀ s b, projY (F s b) = projY s) :
    ∀ (l : List β) (s : LState), projY (l.foldl F s) = projY s
  | [], _ => rfl
  | b :: l, s => by
    dsimp only [List.foldl_cons]
    rw [foldl_projY F h l _, h s b]

theorem resolveOverlapsByLevel_projY (dims : Dimensions) (st : LState) :
    projY (resolveOverlapsByLevel dims st) = projY st := by
  unfold resolveOverlapsByLevel
  exact foldl_projY _ (fun s ids => by
    split
    · exact resolveLoop_projY dims ids 15 s
    · rfl) _ _

theorem resolveGlobalOverlaps_projY (dims : Dimensions) (st : LState) :
    projY (resolveGlobalOverlaps dims st) = projY st :=
  resolveLoop_projY dims _ 20 st

/-- Phase B only moves nodes vertically: the whole overlap-resolution
pass leaves every node's identity, shape fields and `x` unchanged. -/
theorem performComprehensiveOverlapResolution_projY (dims : Dimensions) (st : LState) :
    projY (performComprehensiveOverlapResolution dims st) = projY st := by
  unfold performComprehensiveOverlapResolution
  rw [resolveGlobalOverlaps_projY, resolveOverlapsByLevel_projY]

theorem phaseB_dropY (dims : Dimensions) (st : LState) (k : ℕ) :
    (alookup (performComprehensiveOverlapResolution dims st) k).map dropY
      = (alookup st k).map dropY := by
  rw [← alookup_projY, ← alookup_projY,
    performComprehensiveOverlapResolution_projY]

end Layout

namespace Layout

open MindMap (Node alookup)

/-- Forget both coordinates of a node: what remains is the tree shape
(id, text, level, parent pointer, children list, colour). -/
def shapeOf (c : Node) : Node := { c with x := 0, y := 0 }

/-- The store with every node's coordinates forgotten: the tree shape. -/
def projShape (st : LState) : LState := st.map (fun p => (p.1, shapeOf p.2))

/-- A five-node tree: root `1` with children `2` and `3`, one grandchild
on each side (`4` under `2`, `5` under `3`); coordinates all zero. -/
def scen5 : LState :=
  [(1, mkScenNode 1 0 none [2, 3]), (2, mkScenNode 2 1 (some 1) [4]),
   (3, mkScenNode 3 1 (some 1) [5]), (4, mkScenNode 4 2 (some 2) []),
   (5, mkScenNode 5 2 (some 3) [])]

set_option maxRecDepth 10000 in
/-- C6 counterexample: `updateLayout` is not a function of the tree
shape.  The first run on the all-zero five-node tree and a second run on
its own output receive inputs of identical shape (same map contents and
order up to coordinates), yet they disagree on node 4's final `y`:
`avoidIntersections` reads the sibling subtree's stored coordinates, so
the incoming coordinates leak into the result. -/
theorem updateLayout_second_run_differs :
    projShape (updateLayout 0 0 scen5) = projShape scen5
    ∧ (alookup (updateLayout 0 0 scen5) 4).map Node.y
        ≠ (alookup (updateLayout 0 0 (updateLayout 0 0 scen5)) 4).map Node.y :=
  ⟨by with_unfolding_all decide, by with_unfolding_all decide⟩

end Layout

namespace Layout

open MindMap (Node alookup RT idsList repB repList)

mutual

/-- The `x` coordinates Phase A assigns inside a branch, as a pure
function of the subtree description: the subtree root sits at `px` and
every generation moves one base distance (280) further in the branch
direction `σ`. -/
def branchX (σ : ℚ) : RT → ℚ → List (ℕ × ℚ)
  | .node i cs, px => (i, px) :: branchXList σ cs (px + 280 * σ)

/-- `branchX` over a forest of sibling subtrees, all rooted at `px`. -/
def branchXList (σ : ℚ) : List RT → ℚ → List (ℕ × ℚ)
  | [], _ => []
  | t :: ts, px => branchX σ t px ++ branchXList σ ts px

end

/-- Side of the root child at creation position `j`: even positions go
right (`1`), odd go left (`-1`). -/
def sideSign (j : ℕ) : ℚ := if j % 2 = 0 then 1 else -1

/-- `x` coordinates of the root's child subtrees from position `j` on. -/
def rootChildrenX : List RT → ℕ → List (ℕ × ℚ)
  | [], _ => []
  | t :: ts, j => branchX (sideSign j) t (320 * sideSign j) ++ rootChildrenX ts (j + 1)

/-- The `x` coordinate Phase A assigns to every node, as a pure function
of the tree description: root at 0, the `j`-th root child subtree on
side `sideSign j` starting at `±320` and stepping 280 per level. -/
def treeX : RT → List (ℕ × ℚ)
  | .node r cs => (r, 0) :: rootChildrenX cs 0

theorem alookup_append {α : Type} :
    ∀ (l₁ l₂ : List (ℕ × α)) (k : ℕ),
    alookup (l₁ ++ l₂) k = ((alookup l₁ k).or (alookup l₂ k))
  | [], l₂, k => rfl
  | p :: ps, l₂, k => by
    dsimp only [List.cons_append]
    simp only [alookup]
    by_cases h : p.1 = k
    · simp [h]
    · simp only [if_neg h]
      exact alookup_append ps l₂ k

mutual

theorem alookup_branchX_none (σ px : ℚ) (k : ℕ) :
    ∀ (t : RT), k ∉ t.ids → alookup (branchX σ t px) k = none
  | .node i cs, h => by
    unfold branchX alookup
    have hi : ¬ i = k := by
      intro hk
      exact h (by simp [RT.ids, hk])
    rw [if_neg hi]
    exact alookup_branchXList_none σ (px + 280 * σ) k cs
      (fun hk => h (by simp [RT.ids, hk]))

theorem alookup_branchXList_none (σ px : ℚ) (k : ℕ) :
    ∀ (ts : List RT), k ∉ idsList ts → alookup (branchXList σ ts px) k = none
  | [], _ => rfl
  | t :: ts, h => by
    unfold branchXList
    rw [alookup_append, alookup_branchX_none σ px k t
        (fun hk => h (by simp [idsList, hk])),
      alookup_branchXList_none σ px k ts (fun hk => h (by simp [idsList, hk]))]
    rfl

end

mutual

theorem branchX_bound (σ px : ℚ) (k : ℕ) (xv : ℚ) (hσ : σ * σ = 1) :
    ∀ (t : RT), alookup (branchX σ t px) k = some xv → 320 ≤ σ * px → 320 ≤ σ * xv
  | .node i cs, h, hpx => by
    unfold branchX alookup at h
    split at h
    · injection h with h
      exact h ▸ hpx
    · refine branchXList_bound σ (px + 280 * σ) k xv hσ cs h ?_
      have : σ * (px + 280 * σ) = σ * px + 280 * (σ * σ) := by ring
      rw [this, hσ]
      linarith

theorem branchXList_bound (σ px : ℚ) (k : ℕ) (xv : ℚ) (hσ : σ * σ = 1) :
    ∀ (ts : List RT), alookup (branchXList σ ts px) k = some xv →
      320 ≤ σ * px → 320 ≤ σ * xv
  | [], h, _ => by cases h
  | t :: ts, h, hpx => by
    unfold branchXList at h
    rw [alookup_append] at h
    cases hx : alookup (branchX σ t px) k with
    | some v =>
      rw [hx] at h
      injection h with h
      exact h ▸ branchX_bound σ px k v hσ t hx hpx
    | none =>
      rw [hx] at h
      exact branchXList_bound σ px k xv hσ ts h hpx

end

end Layout

namespace Layout

open MindMap (Node alookup RT idsList repB repList)

theorem alookup_lset : ∀ (m : LState) (k : ℕ) (f : Node → Node) (q : ℕ),
    alookup (lset m k f) q = if q = k then (alookup m q).map f else alookup m q
  | [], k, f, q => by
    dsimp only [lset, List.map_nil, alookup]
    split <;> rfl
  | p :: ps, k, f, q => by
    have hstep : lset (p :: ps) k f
        = (if p.1 = k then (p.1, f p.2) else p) :: lset ps k f := rfl
    rw [hstep]
    by_cases hpk : p.1 = k
    · rw [if_pos hpk]
      by_cases hpq : p.1 = q
      · have hqk : q = k := by rw [← hpq, hpk]
        simp [alookup, hpq, hqk]
      · have hqk : ¬ q = k := fun hh => hpq (hpk.trans hh.symm)
        simp [alookup, hpq, hqk, alookup_lset ps k f q]
    · rw [if_neg hpk]
      by_cases hpq : p.1 = q
      · have hqk : ¬ q = k := fun hh => hpk (hpq.trans hh)
        simp [alookup, hpq, hqk]
      · simp [alookup, hpq, alookup_lset ps k f q]

theorem writeBack_alookup_notmem : ∀ (placed : List Node) (st : LState) (k : ℕ),
    k ∉ placed.map (fun c => c.id) → alookup (writeBack st placed) k = alookup st k
  | [], _, _, _ => rfl
  | c :: rest, st, k, h => by
    dsimp only [writeBack, List.foldl_cons]
    have hk : k ∉ rest.map (fun c => c.id) := fun hm => h (by simp [hm])
    have hne : ¬ k = c.id := fun hh => h (by simp [hh])
    rw [show rest.foldl (fun m c => lset m c.id fun _ => c)
        (lset st c.id fun _ => c)
      = writeBack (lset st c.id fun _ => c) rest from rfl]
    rw [writeBack_alookup_notmem rest _ k hk, alookup_lset, if_neg hne]

theorem writeBack_alookup_mem : ∀ (placed : List Node) (st : LState) (c : Node),
    (placed.map (fun c => c.id)).Nodup → c ∈ placed →
    alookup (writeBack st placed) c.id = (alookup st c.id).map (fun _ => c)
  | [], _, _, _, hmem => absurd hmem (List.not_mem_nil _)
  | c0 :: rest, st, c, hnd, hmem => by
    dsimp only [writeBack, List.foldl_cons]
    rw [show rest.foldl (fun m c => lset m c.id fun _ => c)
        (lset st c0.id fun _ => c0)
      = writeBack (lset st c0.id fun _ => c0) rest from rfl]
    dsimp only [List.map_cons] at hnd
    rw [List.nodup_cons] at hnd
    rcases List.mem_cons.mp hmem with hc | hc
    · subst hc
      have hnotin : c.id ∉ rest.map (fun c => c.id) := hnd.1
      rw [writeBack_alookup_notmem rest _ _ hnotin, alookup_lset, if_pos rfl]
    · have hcid : c.id ∈ rest.map (fun c => c.id) := List.mem_map.mpr ⟨c, hc, rfl⟩
      have hne : ¬ c.id = c0.id := fun hh => hnd.1 (hh ▸ hcid)
      rw [writeBack_alookup_mem rest _ c hnd.2 hc, alookup_lset, if_neg hne]

theorem writeBack_shape (placed : List Node) (st : LState)
    (hnd : (placed.map (fun c => c.id)).Nodup)
    (hsh : ∀ c ∈ placed, (alookup st c.id).map shapeOf = some (shapeOf c)) :
    ∀ q, (alookup (writeBack st placed) q).map shapeOf
      = (alookup st q).map shapeOf := by
  intro q
  by_cases hq : q ∈ placed.map (fun c => c.id)
  · obtain ⟨c, hc, hcid⟩ := List.mem_map.mp hq
    subst hcid
    rw [writeBack_alookup_mem placed st c hnd hc]
    have := hsh c hc
    cases halp : alookup st c.id with
    | none => rw [halp] at this; cases this
    | some v =>
      rw [halp] at this
      simp only [Option.map_some'] at this ⊢
      injection this with this
      rw [this]
  · rw [writeBack_alookup_notmem placed st q hq]

theorem foldl_dropY {β : Type} (F : List Node → β → List Node)
    (h : ∀ ch b, (F ch b).map dropY = ch.map dropY) :
    ∀ (l : List β) (ch : List Node), (l.foldl F ch).map dropY = ch.map dropY
  | [], _ => rfl
  | b :: l, ch => by
    dsimp only [List.foldl_cons]
    rw [foldl_dropY F h l _, h ch b]

theorem adjustForSiblingConflicts_dropY (p : Node) (ch : List Node)
    (s : Node) (sc : List Node) :
    (adjustForSiblingConflicts p ch s sc).map dropY = ch.map dropY := by
  unfold adjustForSiblingConflicts
  dsimp only
  split
  · split
    · rw [List.map_map]
      exact List.map_congr_left (fun c _ => rfl)
    · rfl
  · split
    · rw [List.map_map]
      exact List.map_congr_left (fun c _ => rfl)
    · rfl

theorem avoidIntersections_dropY (st : LState) (p : Node) (ch : List Node) :
    (avoidIntersections st p ch).map dropY = ch.map dropY := by
  unfold avoidIntersections
  split
  · rfl
  · split
    · rfl
    · split
      · rfl
      · exact foldl_dropY _ (fun ch s => by
          dsimp only
          split
          · rfl
          · exact adjustForSiblingConflicts_dropY _ _ _ _) _ _

end Layout

namespace Layout

open MindMap (Node alookup RT idsList repB repList)

theorem enumFrom_map_snd_fn {α β : Type} (F : α → β) :
    ∀ (i : ℕ) (l : List α), (List.enumFrom i l).map (fun q => F q.2) = l.map F
  | _, [] => rfl
  | i, a :: l => by
    dsimp only [List.enumFrom, List.map_cons]
    rw [enumFrom_map_snd_fn F (i + 1) l]

/-- With the parent's own parent resolved, `layoutBranchChildrenNoIntersection`
up to vertical position: every child keeps its fields and moves to
`parent.x + 280 * σ`, where `σ` is the parent's direction relative to
its grandparent. -/
theorem lbc_dropY (st : LState) (n g : Node) (gid : ℕ) (σ : ℚ) (ch : List Node)
    (hpar : n.parent = some gid) (hg : alookup st gid = some g)
    (hdir : (if g.x < n.x then (1 : ℚ) else -1) = σ) :
    (layoutBranchChildrenNoIntersection st n ch).map dropY
      = ch.map (fun c => { c with x := n.x + 280 * σ, y := 0 }) := by
  unfold layoutBranchChildrenNoIntersection
  dsimp only
  rw [hpar]
  dsimp only
  rw [hg]
  dsimp only
  rw [hdir, avoidIntersections_dropY, List.map_map]
  show (List.enumFrom 0 ch).map
      (fun q : ℕ × Node => ({ q.2 with x := n.x + 280 * σ, y := (0 : ℚ) } : Node))
    = ch.map (fun c => { c with x := n.x + 280 * σ, y := 0 })
  exact enumFrom_map_snd_fn
    (fun c : Node => { c with x := n.x + 280 * σ, y := (0 : ℚ) }) 0 ch

mutual

theorem repB_congr_shape (g g' : ℕ → Option Node) (par : Option ℕ) (l : ℕ) (t : RT)
    (h : ∀ k, (g k).map shapeOf = (g' k).map shapeOf) :
    repB g par l t = repB g' par l t := by
  match t with
  | .node i cs =>
    unfold repB
    cases hg : g i with
    | none =>
      cases hg' : g' i with
      | none => rfl
      | some n' =>
        have hi := h i
        rw [hg, hg'] at hi
        simp at hi
    | some n =>
      cases hg' : g' i with
      | none =>
        have hi := h i
        rw [hg, hg'] at hi
        simp at hi
      | some n' =>
        have hi := h i
        rw [hg, hg'] at hi
        obtain ⟨n1, n2, n3, n4, n5, n6, n7, n8⟩ := n
        obtain ⟨m1, m2, m3, m4, m5, m6, m7, m8⟩ := n'
        simp only [Option.map_some', Option.some.injEq, shapeOf,
          Node.mk.injEq] at hi
        obtain ⟨e1, e2, e3, e4, e5, e6⟩ := hi
        dsimp only
        rw [e1, e3, e4, e5, repList_congr_shape g g' i (l + 1) cs h]

theorem repList_congr_shape (g g' : ℕ → Option Node) (i l : ℕ) (ts : List RT)
    (h : ∀ k, (g k).map shapeOf = (g' k).map shapeOf) :
    repList g i l ts = repList g' i l ts := by
  match ts with
  | [] => rfl
  | t :: ts =>
    unfold repList
    rw [repB_congr_shape g g' (some i) l t h,
      repList_congr_shape g g' i l ts h]

end

theorem repList_children (g : ℕ → Option Node) (i l : ℕ) :
    ∀ (cs : List RT), repList g i l cs = true →
      ((cs.map RT.rootId).filterMap g).length = cs.length
      ∧ (∀ j : ℕ, ((cs.map RT.rootId).filterMap g)[j]?
          = (cs[j]?).bind (fun t => g t.rootId))
      ∧ ((cs.map RT.rootId).filterMap g).map (fun c => c.id) = cs.map RT.rootId
  | [], _ => ⟨rfl, fun j => by simp, rfl⟩
  | t :: ts, h => by
    rw [MindMap.repList_cons_iff] at h
    obtain ⟨ht, hts⟩ := h
    obtain ⟨IH1, IH2, IH3⟩ := repList_children g i l ts hts
    match t with
    | .node i' cs' =>
      rw [MindMap.repB_node_iff] at ht
      obtain ⟨n, hn, hid, -, -, -⟩ := ht
      dsimp only [List.map_cons, RT.rootId]
      simp only [List.filterMap_cons, hn]
      refine ⟨by rw [List.length_cons, List.length_cons, IH1], fun j => ?_, ?_⟩
      · match j with
        | 0 =>
          rw [List.getElem?_cons_zero, List.getElem?_cons_zero, Option.some_bind]
          dsimp only [RT.rootId]
          exact hn.symm
        | j + 1 =>
          rw [List.getElem?_cons_succ, List.getElem?_cons_succ]
          exact IH2 j
      · simp only [List.map_cons]
        rw [IH3, hid]

theorem roots_nodup : ∀ (cs : List RT), (idsList cs).Nodup → (cs.map RT.rootId).Nodup
  | [], _ => List.nodup_nil
  | t :: ts, h => by
    rw [show idsList (t :: ts) = t.ids ++ idsList ts from rfl,
      List.nodup_append] at h
    obtain ⟨h1, h2, h3⟩ := h
    dsimp only [List.map_cons]
    rw [List.nodup_cons]
    refine ⟨fun hmem => ?_, roots_nodup ts h2⟩
    obtain ⟨t', ht', heq⟩ := List.mem_map.mp hmem
    have hin : t.rootId ∈ idsList ts := heq ▸ MindMap.rootId_mem_idsList ht'
    exact h3 (MindMap.rootId_mem_ids t) hin

end Layout

namespace Layout

open MindMap (Node alookup RT idsList repB repList)

theorem layoutCMS_step (fuel : ℕ) (st : LState) (i : ℕ) (n : Node)
    (halp : alookup st i = some n) :
    layoutChildrenMindMeisterStyle (fuel + 1) st i
      = (let children := n.children.filterMap (alookup st)
         if children.isEmpty then st else
         let placed := if n.level = 0 then layoutRootChildren children
           else layoutBranchChildrenNoIntersection st n children
         placed.foldl (fun s c => layoutChildrenMindMeisterStyle fuel s c.id)
           (writeBack st placed)) := by
  conv_lhs => unfold layoutChildrenMindMeisterStyle
  rw [halp]

/-- Phase A run over a list of subtree roots in order. -/
def foldCMS (fuel : ℕ) (rs : List ℕ) (st : LState) : LState :=
  rs.foldl (fun s r => layoutChildrenMindMeisterStyle fuel s r) st

theorem foldCMS_eq_foldl (fuel : ℕ) (placed : List Node) (st : LState) :
    placed.foldl (fun s c => layoutChildrenMindMeisterStyle fuel s c.id) st
      = foldCMS fuel (placed.map (fun c => c.id)) st := by
  unfold foldCMS
  rw [List.foldl_map]

theorem alookup_branchX_root (σ px : ℚ) (t : RT) :
    alookup (branchX σ t px) t.rootId = some px := by
  match t with
  | .node i cs =>
    dsimp only [branchX, RT.rootId, alookup]
    rw [if_pos rfl]

mutual

theorem alookup_branchX_isSome (σ px : ℚ) (k : ℕ) :
    ∀ (t : RT), k ∈ t.ids → (alookup (branchX σ t px) k).isSome = true
  | .node i cs, h => by
    dsimp only [branchX, alookup]
    by_cases hik : i = k
    · rw [if_pos hik]
      rfl
    · rw [if_neg hik]
      refine alookup_branchXList_isSome σ (px + 280 * σ) k cs ?_
      rcases (MindMap.mem_ids_node k i cs).mp h with h1 | h1
      · exact absurd h1.symm hik
      · exact h1

theorem alookup_branchXList_isSome (σ px : ℚ) (k : ℕ) :
    ∀ (ts : List RT), k ∈ idsList ts →
      (alookup (branchXList σ ts px) k).isSome = true
  | t :: ts, h => by
    dsimp only [branchXList]
    rw [alookup_append]
    rcases (MindMap.mem_idsList_cons k t ts).mp h with h1 | h1
    · cases hx : alookup (branchX σ t px) k with
      | some v => rfl
      | none =>
        have := alookup_branchX_isSome σ px k t h1
        rw [hx] at this
        cases this
    · cases hx : alookup (branchX σ t px) k with
      | some v => rfl
      | none => exact alookup_branchXList_isSome σ px k ts h1

end

end Layout

namespace Layout

open MindMap (Node alookup RT idsList repB repList)

/-- Consequences of a placement list `placed` whose `dropY` image matches
the represented children `children` with per-index `x` assignment `X`:
ids line up with the subtree roots in order, shapes of the written
objects agree with the stored ones, and each subtree root gets `X j`. -/
theorem placed_facts (st : LState) (i l : ℕ) (cs : List RT)
    (children placed : List Node) (X : ℕ → ℚ)
    (hrepcs : repList (alookup st) i l cs = true)
    (hchdef : children = (cs.map RT.rootId).filterMap (alookup st))
    (hplen : placed.length = children.length)
    (hpget : ∀ j : ℕ, (placed[j]?).map dropY
      = (children[j]?).map (fun c => { c with x := X j, y := (0 : ℚ) })) :
    placed.map (fun c => c.id) = cs.map RT.rootId
    ∧ (∀ c ∈ placed, (alookup st c.id).map shapeOf = some (shapeOf c))
    ∧ (∀ j : ℕ, ∀ t' : RT, cs[j]? = some t' →
        ∃ pc, placed[j]? = some pc ∧ pc.id = t'.rootId ∧ pc.x = X j) := by
  obtain ⟨CH1, CH2, CH3⟩ := repList_children (alookup st) i l cs hrepcs
  rw [← hchdef] at CH1 CH2 CH3
  have key : ∀ j : ℕ, ∀ t' : RT, cs[j]? = some t' →
      ∃ pc cj, placed[j]? = some pc ∧ children[j]? = some cj
        ∧ alookup st t'.rootId = some cj
        ∧ dropY pc = { cj with x := X j, y := (0 : ℚ) }
        ∧ cj.id = t'.rootId := by
    intro j t' hj
    have hjlt : j < cs.length := by
      by_contra hcon
      rw [List.getElem?_eq_none (by omega)] at hj
      cases hj
    have hjc : j < children.length := by omega
    have hjp : j < placed.length := by omega
    have hcj : children[j]? = some children[j] := List.getElem?_eq_getElem hjc
    have hpc : placed[j]? = some placed[j] := List.getElem?_eq_getElem hjp
    have hq := hpget j
    rw [hpc, hcj] at hq
    simp only [Option.map_some'] at hq
    injection hq with hq
    have hlk := CH2 j
    rw [hj, Option.some_bind, hcj] at hlk
    have hid := congrArg (fun ll => ll[j]?) CH3
    dsimp only at hid
    rw [List.getElem?_map, List.getElem?_map, hcj, hj] at hid
    simp only [Option.map_some'] at hid
    injection hid with hid
    exact ⟨placed[j], children[j], hpc, hcj, hlk.symm, hq, hid⟩
  refine ⟨?_, ?_, ?_⟩
  · refine List.ext_getElem? (fun j => ?_)
    rw [List.getElem?_map, List.getElem?_map]
    by_cases hjlt : j < cs.length
    · have hj : cs[j]? = some cs[j] := List.getElem?_eq_getElem hjlt
      obtain ⟨pc, cj, hpc, hcj, hlk, hdr, hcid⟩ := key j cs[j] hj
      rw [hpc, hj]
      simp only [Option.map_some']
      have h1 : pc.id = cj.id := by
        rw [show pc.id = (dropY pc).id from rfl, hdr]
      rw [h1, hcid]
    · rw [List.getElem?_eq_none (by omega : cs.length ≤ j),
        List.getElem?_eq_none (by omega : placed.length ≤ j)]
      rfl
  · intro c hc
    obtain ⟨j, hj⟩ := List.getElem?_of_mem hc
    have hjp : j < placed.length := by
      by_contra hcon
      rw [List.getElem?_eq_none (by omega)] at hj
      cases hj
    have hjlt : j < cs.length := by omega
    obtain ⟨pc, cj, hpc, hcj, hlk, hdr, hcid⟩ :=
      key j cs[j] (List.getElem?_eq_getElem hjlt)
    rw [hj] at hpc
    injection hpc with hpc
    subst hpc
    have h1 : c.id = cj.id := by
      rw [show c.id = (dropY c).id from rfl, hdr]
    have h2 : shapeOf c = shapeOf cj := by
      rw [show shapeOf c = shapeOf (dropY c) from rfl, hdr]
      rfl
    rw [h1, hcid, hlk]
    simp only [Option.map_some']
    rw [h2]
  · intro j t' hj
    obtain ⟨pc, cj, hpc, hcj, hlk, hdr, hcid⟩ := key j t' hj
    refine ⟨pc, hpc, ?_, ?_⟩
    · rw [show pc.id = (dropY pc).id from rfl, hdr]
      exact hcid
    · rw [show pc.x = (dropY pc).x from rfl, hdr]

end Layout

namespace Layout

open MindMap (Node alookup RT idsList heightList repB repList)

mutual

/-- Phase A on a branch subtree `t` rooted at a node `n` (level `l ≠ 0`,
parent `gid` resolved to `g`, strictly further out than `g` on side `σ`):
the run only rewrites strict descendants of the root, preserves every
node's shape, and realises exactly the `x` assignment `branchX σ t n.x`. -/
theorem branchA_tree (σ : ℚ) (t : RT) :
    ∀ (fuel : ℕ) (st : LState) (gid l : ℕ) (g n : Node),
    repB (alookup st) (some gid) l t = true →
    alookup st t.rootId = some n →
    alookup st gid = some g →
    (σ = 1 ∨ σ = -1) →
    σ * g.x < σ * n.x →
    320 ≤ σ * n.x →
    l ≠ 0 →
    t.ids.Nodup →
    gid ∉ t.ids →
    t.height ≤ fuel →
    (∀ k, (k ∈ t.ids → k = t.rootId) →
      alookup (layoutChildrenMindMeisterStyle fuel st t.rootId) k = alookup st k)
    ∧ (∀ k, (alookup (layoutChildrenMindMeisterStyle fuel st t.rootId) k).map shapeOf
        = (alookup st k).map shapeOf)
    ∧ (∀ k, k ∈ t.ids →
        (alookup (layoutChildrenMindMeisterStyle fuel st t.rootId) k).map Node.x
          = alookup (branchX σ t n.x) k) := by
  match t with
  | .node i cs =>
    intro fuel st gid l g n hrep halp hg hσ hord h320 hl hnd hgid hfuel
    rw [MindMap.repB_node_iff] at hrep
    obtain ⟨n0, hn0, hnid, hnlv, hnpar, hnch, hrepcs⟩ := hrep
    dsimp only [RT.rootId] at halp ⊢
    rw [halp] at hn0
    injection hn0 with hn0
    subst hn0
    have hhp := MindMap.height_pos (RT.node i cs)
    cases fuel with
    | zero => exact absurd hfuel (by omega)
    | succ fuel =>
    cases cs with
    | nil =>
      have hres : layoutChildrenMindMeisterStyle (fuel + 1) st i = st := by
        rw [layoutCMS_step fuel st i n halp, hnch]
        rfl
      refine ⟨fun k _ => by rw [hres], fun k => by rw [hres], fun k hk => ?_⟩
      have hk2 : k = i := by
        rcases (MindMap.mem_ids_node k i []).mp hk with h1 | h1
        · exact h1
        · exact absurd h1 (List.not_mem_nil k)
      subst hk2
      rw [hres, halp]
      have hroot := alookup_branchX_root σ n.x (RT.node k [])
      dsimp only [RT.rootId] at hroot
      rw [hroot]
      rfl
    | cons t1 ts1 =>
      have hndc := hnd
      dsimp only [RT.ids] at hndc
      rw [List.nodup_cons] at hndc
      obtain ⟨hinot, hndcs⟩ := hndc
      obtain ⟨CH1, CH2, CH3⟩ :=
        repList_children (alookup st) i (l + 1) (t1 :: ts1) hrepcs
      have hσσ : σ * σ = 1 := by
        rcases hσ with h1 | h1 <;> subst h1 <;> norm_num
      have hdir : (if g.x < n.x then (1 : ℚ) else -1) = σ := by
        rcases hσ with h1 | h1 <;> subst h1
        · rw [if_pos (by linarith)]
        · rw [if_neg (by intro hlt; linarith)]
      set children := (((t1 :: ts1)).map RT.rootId).filterMap (alookup st) with hchdef
      have hchne : children.isEmpty = false := by
        cases hc : children with
        | nil =>
          rw [hc] at CH1
          exact absurd CH1.symm (by simp)
        | cons a as => rfl
      set placed := layoutBranchChildrenNoIntersection st n children with hpldef
      have hplaced : placed.map dropY
          = children.map (fun c => { c with x := n.x + 280 * σ, y := 0 }) :=
        lbc_dropY st n g gid σ children hnpar hg hdir
      have hplen : placed.length = children.length := by
        have hh := congrArg List.length hplaced
        rwa [List.length_map, List.length_map] at hh
      have hpget : ∀ j : ℕ, (placed[j]?).map dropY
          = (children[j]?).map
              (fun c => { c with x := n.x + 280 * σ, y := (0 : ℚ) }) := by
        intro j
        have hh := congrArg (fun ll => ll[j]?) hplaced
        dsimp only at hh
        rwa [List.getElem?_map, List.getElem?_map] at hh
      obtain ⟨PF1, PF2, PF3⟩ := placed_facts st i (l + 1) (t1 :: ts1) children placed
        (fun _ => n.x + 280 * σ) hrepcs hchdef hplen hpget
      have hpnodup : (placed.map (fun c => c.id)).Nodup := by
        rw [PF1]
        exact roots_nodup _ hndcs
      set st2 := writeBack st placed with hst2
      have W1 : ∀ q, q ∉ ((t1 :: ts1)).map RT.rootId → alookup st2 q = alookup st q := by
        intro q hq
        exact writeBack_alookup_notmem placed st q (by rwa [PF1])
      have W2 : ∀ q, (alookup st2 q).map shapeOf = (alookup st q).map shapeOf :=
        writeBack_shape placed st hpnodup PF2
      have W3 : ∀ t', t' ∈ t1 :: ts1 → ∃ ct, alookup st2 t'.rootId = some ct
          ∧ ct.x = n.x + 280 * σ := by
        intro t' ht'
        obtain ⟨j, hj⟩ := List.getElem?_of_mem ht'
        obtain ⟨pc, hpc, hpcid, hpcx⟩ := PF3 j t' hj
        refine ⟨pc, ?_, hpcx⟩
        rw [← hpcid, hst2,
          writeBack_alookup_mem placed st pc hpnodup (List.getElem?_mem hpc)]
        have hs := PF2 pc (List.getElem?_mem hpc)
        cases hst : alookup st pc.id with
        | none => rw [hst] at hs; cases hs
        | some v => rfl
      have hstep : layoutChildrenMindMeisterStyle (fuel + 1) st i
          = foldCMS fuel (((t1 :: ts1)).map RT.rootId) st2 := by
        rw [layoutCMS_step fuel st i n halp, hnch]
        dsimp only
        rw [← hchdef]
        rw [if_neg (by rw [hchne]; exact Bool.false_ne_true)]
        rw [hnlv, if_neg hl, ← hpldef, ← hst2, foldCMS_eq_foldl, PF1]
      have hnext : σ * (n.x + 280 * σ) = σ * n.x + 280 := by
        have hr : σ * (n.x + 280 * σ) = σ * n.x + 280 * (σ * σ) := by ring
        rw [hr, hσσ, mul_one]
      have hrepcs2 : repList (alookup st2) i (l + 1) (t1 :: ts1) = true := by
        rw [repList_congr_shape (alookup st2) (alookup st) i (l + 1) (t1 :: ts1) W2]
        exact hrepcs
      have hroots_sub : ∀ q, q ∈ ((t1 :: ts1)).map RT.rootId →
          q ∈ idsList (t1 :: ts1) := by
        intro q hq
        obtain ⟨t', ht', hq2⟩ := List.mem_map.mp hq
        exact hq2 ▸ MindMap.rootId_mem_idsList ht'
      have hinotid : i ∉ ((t1 :: ts1)).map RT.rootId :=
        fun hm => hinot (hroots_sub i hm)
      have hpn2 : alookup st2 i = some n := by
        rw [W1 i hinotid]
        exact halp
      have hfuel2 : heightList (t1 :: ts1) ≤ fuel := by
        have hhh : RT.height (RT.node i (t1 :: ts1))
            = 1 + heightList (t1 :: ts1) := rfl
        rw [hhh] at hfuel
        omega
      obtain ⟨F1, F2, F3⟩ := branchA_forest σ (t1 :: ts1) fuel st2 i (l + 1) n
        (n.x + 280 * σ) hrepcs2 hpn2 W3 hσ (by rw [hnext]; linarith)
        (by rw [hnext]; linarith) (by omega) hndcs hinot hfuel2
      refine ⟨fun k hk => ?_, fun k => ?_, fun k hk => ?_⟩
      · rw [hstep]
        have hknot : k ∉ idsList (t1 :: ts1) := by
          intro hm
          have hki := hk ((MindMap.mem_ids_node k i (t1 :: ts1)).mpr (Or.inr hm))
          exact hinot (hki ▸ hm)
        rw [F1 k (fun hm => absurd hm hknot)]
        exact W1 k (fun hm => hknot (hroots_sub k hm))
      · rw [hstep, F2 k, W2 k]
      · rw [hstep]
        rcases (MindMap.mem_ids_node k i (t1 :: ts1)).mp hk with hki | hki
        · subst hki
          rw [F1 k (fun hm => absurd hm hinot), W1 k hinotid, halp]
          have hroot := alookup_branchX_root σ n.x (RT.node k (t1 :: ts1))
          dsimp only [RT.rootId] at hroot
          rw [hroot]
          rfl
        · have hkni : ¬ i = k := fun he => hinot (he ▸ hki)
          rw [F3 k hki]
          show alookup (branchXList σ (t1 :: ts1) (n.x + 280 * σ)) k
            = alookup (branchX σ (RT.node i (t1 :: ts1)) n.x) k
          dsimp only [branchX, alookup]
          rw [if_neg hkni]

/-- Phase A over a forest of sibling subtrees whose roots were just
placed at `px`: frame, shape preservation, and the `branchXList`
`x` assignment. -/
theorem branchA_forest (σ : ℚ) (ts : List RT) :
    ∀ (fuel : ℕ) (st : LState) (pid l : ℕ) (pn : Node) (px : ℚ),
    repList (alookup st) pid l ts = true →
    alookup st pid = some pn →
    (∀ t', t' ∈ ts → ∃ ct, alookup st t'.rootId = some ct ∧ ct.x = px) →
    (σ = 1 ∨ σ = -1) →
    σ * pn.x < σ * px →
    320 ≤ σ * px →
    l ≠ 0 →
    (idsList ts).Nodup →
    pid ∉ idsList ts →
    heightList ts ≤ fuel →
    (∀ k, (k ∈ idsList ts → k ∈ ts.map RT.rootId) →
      alookup (foldCMS fuel (ts.map RT.rootId) st) k = alookup st k)
    ∧ (∀ k, (alookup (foldCMS fuel (ts.map RT.rootId) st) k).map shapeOf
        = (alookup st k).map shapeOf)
    ∧ (∀ k, k ∈ idsList ts →
        (alookup (foldCMS fuel (ts.map RT.rootId) st) k).map Node.x
          = alookup (branchXList σ ts px) k) := by
  match ts with
  | [] =>
    intro fuel st pid l pn px _ _ _ _ _ _ _ _ _ _
    refine ⟨fun k _ => rfl, fun k => rfl, fun k hk => ?_⟩
    dsimp only [idsList] at hk
    exact absurd hk (List.not_mem_nil k)
  | t1 :: ts1 =>
    intro fuel st pid l pn px hrepL hpn hpx hσ hord h320 hl hnd hpid hfuel
    rw [MindMap.repList_cons_iff] at hrepL
    obtain ⟨hrep1, hrepL1⟩ := hrepL
    rw [show idsList (t1 :: ts1) = t1.ids ++ idsList ts1 from rfl,
      List.nodup_append] at hnd
    obtain ⟨hnd1, hnd2, hdisj⟩ := hnd
    obtain ⟨ct, hct, hctx⟩ := hpx t1 (List.mem_cons_self _ _)
    have hgid1 : pid ∉ t1.ids :=
      fun hmem => hpid ((MindMap.mem_idsList_cons pid t1 ts1).mpr (Or.inl hmem))
    have hf1 : t1.height ≤ fuel :=
      le_trans (le_max_left t1.height (heightList ts1)) hfuel
    obtain ⟨T1, T2, T3⟩ := branchA_tree σ t1 fuel st pid l pn ct hrep1 hct hpn hσ
      (by rw [hctx]; exact hord) (by rw [hctx]; exact h320) hl hnd1 hgid1 hf1
    have hstep : foldCMS fuel ((t1 :: ts1).map RT.rootId) st
        = foldCMS fuel (ts1.map RT.rootId)
            (layoutChildrenMindMeisterStyle fuel st t1.rootId) := rfl
    have hrepL2 : repList
        (alookup (layoutChildrenMindMeisterStyle fuel st t1.rootId)) pid l ts1
        = true := by
      rw [repList_congr_shape _ (alookup st) pid l ts1 T2]
      exact hrepL1
    have hpn2 : alookup (layoutChildrenMindMeisterStyle fuel st t1.rootId) pid
        = some pn := by
      rw [T1 pid (fun hm => absurd hm hgid1)]
      exact hpn
    have hpx2 : ∀ t', t' ∈ ts1 →
        ∃ c2, alookup (layoutChildrenMindMeisterStyle fuel st t1.rootId) t'.rootId
          = some c2 ∧ c2.x = px := by
      intro t2 ht2
      obtain ⟨c2, hc2, hc2x⟩ := hpx t2 (List.mem_cons_of_mem _ ht2)
      have hr2 : t2.rootId ∉ t1.ids :=
        fun hmem => hdisj hmem (MindMap.rootId_mem_idsList ht2)
      exact ⟨c2, by rw [T1 t2.rootId (fun hm => absurd hm hr2)]; exact hc2, hc2x⟩
    have hpid2 : pid ∉ idsList ts1 :=
      fun hm => hpid ((MindMap.mem_idsList_cons pid t1 ts1).mpr (Or.inr hm))
    have hf2 : heightList ts1 ≤ fuel :=
      le_trans (le_max_right t1.height (heightList ts1)) hfuel
    obtain ⟨F1, F2, F3⟩ := branchA_forest σ ts1 fuel
      (layoutChildrenMindMeisterStyle fuel st t1.rootId) pid l pn px
      hrepL2 hpn2 hpx2 hσ hord h320 hl hnd2 hpid2 hf2
    refine ⟨fun k hk => ?_, fun k => ?_, fun k hk => ?_⟩
    · rw [hstep]
      have hsub1 : k ∈ idsList ts1 → k ∈ ts1.map RT.rootId := by
        intro hm
        have hkin : k ∈ idsList (t1 :: ts1) :=
          (MindMap.mem_idsList_cons k t1 ts1).mpr (Or.inr hm)
        have hk2 : k ∈ t1.rootId :: ts1.map RT.rootId := hk hkin
        rcases List.mem_cons.mp hk2 with he | he
        · exact absurd hm (he ▸ fun hm2 => hdisj (MindMap.rootId_mem_ids t1) hm2)
        · exact he
      rw [F1 k hsub1]
      refine T1 k (fun hm => ?_)
      have hkin : k ∈ idsList (t1 :: ts1) :=
        (MindMap.mem_idsList_cons k t1 ts1).mpr (Or.inl hm)
      have hk2 : k ∈ t1.rootId :: ts1.map RT.rootId := hk hkin
      rcases List.mem_cons.mp hk2 with he | he
      · exact he
      · exfalso
        obtain ⟨t', ht', he2⟩ := List.mem_map.mp he
        exact hdisj hm (he2 ▸ MindMap.rootId_mem_idsList ht')
    · rw [hstep, F2 k, T2 k]
    · rw [hstep]
      rw [show branchXList σ (t1 :: ts1) px
          = branchX σ t1 px ++ branchXList σ ts1 px from rfl, alookup_append]
      rcases (MindMap.mem_idsList_cons k t1 ts1).mp hk with hk1 | hk1
      · have hLx : (alookup (foldCMS fuel (ts1.map RT.rootId)
            (layoutChildrenMindMeisterStyle fuel st t1.rootId)) k).map Node.x
            = alookup (branchX σ t1 px) k := by
          have hnotts : k ∉ idsList ts1 := fun hm => hdisj hk1 hm
          rw [F1 k (fun hm => absurd hm hnotts)]
          by_cases hkr : k = t1.rootId
          · rw [hkr, T1 t1.rootId (fun _ => rfl), hct, alookup_branchX_root]
            simp [hctx]
          · have hT3 := T3 k hk1
            rw [hctx] at hT3
            exact hT3
        cases hsome : alookup (branchX σ t1 px) k with
        | some v =>
          rw [hsome] at hLx
          rw [hLx]
          rfl
        | none =>
          exfalso
          have hks := alookup_branchX_isSome σ px k t1 hk1
          rw [hsome] at hks
          cases hks
      · have hnott1 : k ∉ t1.ids := fun hm => hdisj hm hk1
        rw [F3 k hk1, alookup_branchX_none σ px k t1 hnott1, Option.none_or]

end

end Layout

namespace Layout

open MindMap (Node alookup RT idsList heightList repB repList)

theorem listModify_length {α : Type} :
    ∀ (l : List α) (i : ℕ) (f : α → α), (listModify l i f).length = l.length
  | [], _, _ => rfl
  | _ :: rest, 0, _ => rfl
  | a :: rest, i + 1, f => by
    dsimp only [listModify]
    rw [List.length_cons, List.length_cons, listModify_length rest i f]

theorem foldl_listModify_length {β : Type} (G : β → ℕ) (F : β → Node → Node) :
    ∀ (l : List β) (acc : List Node),
    (l.foldl (fun cs b => listModify cs (G b) (F b)) acc).length = acc.length
  | [], _ => rfl
  | b :: l, acc => by
    dsimp only [List.foldl_cons]
    rw [foldl_listModify_length G F l _, listModify_length]

theorem layoutRootChildren_length (ch : List Node) :
    (layoutRootChildren ch).length = ch.length := by
  unfold layoutRootChildren
  dsimp only
  rw [foldl_listModify_length (fun ri : ℕ × ℕ => ri.2), foldl_listModify_length
    (fun ri : ℕ × ℕ => ri.2)]

theorem sideSign_cases (j : ℕ) : sideSign j = 1 ∨ sideSign j = -1 := by
  unfold sideSign
  split
  · exact Or.inl rfl
  · exact Or.inr rfl

theorem sideSign_sq (j : ℕ) : sideSign j * sideSign j = 1 := by
  rcases sideSign_cases j with h | h <;> rw [h] <;> norm_num

/-- Phase A over the root's child subtrees, whose roots were just placed
at `±320` according to their creation position, starting at `jstart`. -/
theorem rootA_forest (cs : List RT) :
    ∀ (jstart fuel : ℕ) (st : LState) (rid : ℕ) (rn : Node),
    repList (alookup st) rid 1 cs = true →
    alookup st rid = some rn →
    rn.x = 0 →
    (∀ j : ℕ, ∀ t' : RT, cs[j]? = some t' →
      ∃ ct, alookup st t'.rootId = some ct ∧ ct.x = 320 * sideSign (jstart + j)) →
    (idsList cs).Nodup →
    rid ∉ idsList cs →
    heightList cs ≤ fuel →
    (∀ k, (k ∈ idsList cs → k ∈ cs.map RT.rootId) →
      alookup (foldCMS fuel (cs.map RT.rootId) st) k = alookup st k)
    ∧ (∀ k, (alookup (foldCMS fuel (cs.map RT.rootId) st) k).map shapeOf
        = (alookup st k).map shapeOf)
    ∧ (∀ k, k ∈ idsList cs →
        (alookup (foldCMS fuel (cs.map RT.rootId) st) k).map Node.x
          = alookup (rootChildrenX cs jstart) k) := by
  match cs with
  | [] =>
    intro jstart fuel st rid rn _ _ _ _ _ _ _
    refine ⟨fun k _ => rfl, fun k => rfl, fun k hk => ?_⟩
    dsimp only [idsList] at hk
    exact absurd hk (List.not_mem_nil k)
  | t1 :: ts1 =>
    intro jstart fuel st rid rn hrepL hrn hrx hpx hnd hrid hfuel
    rw [MindMap.repList_cons_iff] at hrepL
    obtain ⟨hrep1, hrepL1⟩ := hrepL
    rw [show idsList (t1 :: ts1) = t1.ids ++ idsList ts1 from rfl,
      List.nodup_append] at hnd
    obtain ⟨hnd1, hnd2, hdisj⟩ := hnd
    obtain ⟨ct, hct, hctx⟩ := hpx 0 t1 (List.getElem?_cons_zero)
    rw [Nat.add_zero] at hctx
    have hσ := sideSign_cases jstart
    have hσσ := sideSign_sq jstart
    have hpx320 : sideSign jstart * (320 * sideSign jstart) = 320 := by
      have hr : sideSign jstart * (320 * sideSign jstart)
          = 320 * (sideSign jstart * sideSign jstart) := by ring
      rw [hr, hσσ, mul_one]
    have hgid1 : rid ∉ t1.ids :=
      fun hmem => hrid ((MindMap.mem_idsList_cons rid t1 ts1).mpr (Or.inl hmem))
    have hf1 : t1.height ≤ fuel :=
      le_trans (le_max_left t1.height (heightList ts1)) hfuel
    obtain ⟨T1, T2, T3⟩ := branchA_tree (sideSign jstart) t1 fuel st rid 1 rn ct
      hrep1 hct hrn hσ
      (by rw [hctx, hrx, mul_zero, hpx320]; norm_num)
      (by rw [hctx, hpx320]) (by omega) hnd1 hgid1 hf1
    have hstep : foldCMS fuel ((t1 :: ts1).map RT.rootId) st
        = foldCMS fuel (ts1.map RT.rootId)
            (layoutChildrenMindMeisterStyle fuel st t1.rootId) := rfl
    have hrepL2 : repList
        (alookup (layoutChildrenMindMeisterStyle fuel st t1.rootId)) rid 1 ts1
        = true := by
      rw [repList_congr_shape _ (alookup st) rid 1 ts1 T2]
      exact hrepL1
    have hrn2 : alookup (layoutChildrenMindMeisterStyle fuel st t1.rootId) rid
        = some rn := by
      rw [T1 rid (fun hm => absurd hm hgid1)]
      exact hrn
    have hpx2 : ∀ j : ℕ, ∀ t' : RT, ts1[j]? = some t' →
        ∃ c2, alookup (layoutChildrenMindMeisterStyle fuel st t1.rootId) t'.rootId
          = some c2 ∧ c2.x = 320 * sideSign (jstart + 1 + j) := by
      intro j t2 hj
      obtain ⟨c2, hc2, hc2x⟩ := hpx (j + 1) t2 (by rwa [List.getElem?_cons_succ])
      have ht2 : t2 ∈ ts1 := List.getElem?_mem hj
      have hr2 : t2.rootId ∉ t1.ids :=
        fun hmem => hdisj hmem (MindMap.rootId_mem_idsList ht2)
      refine ⟨c2, by rw [T1 t2.rootId (fun hm => absurd hm hr2)]; exact hc2, ?_⟩
      rw [hc2x]
      have : jstart + (j + 1) = jstart + 1 + j := by omega
      rw [this]
    have hrid2 : rid ∉ idsList ts1 :=
      fun hm => hrid ((MindMap.mem_idsList_cons rid t1 ts1).mpr (Or.inr hm))
    have hf2 : heightList ts1 ≤ fuel :=
      le_trans (le_max_right t1.height (heightList ts1)) hfuel
    obtain ⟨F1, F2, F3⟩ := rootA_forest ts1 (jstart + 1) fuel
      (layoutChildrenMindMeisterStyle fuel st t1.rootId) rid rn
      hrepL2 hrn2 hrx hpx2 hnd2 hrid2 hf2
    refine ⟨fun k hk => ?_, fun k => ?_, fun k hk => ?_⟩
    · rw [hstep]
      have hsub1 : k ∈ idsList ts1 → k ∈ ts1.map RT.rootId := by
        intro hm
        have hkin : k ∈ idsList (t1 :: ts1) :=
          (MindMap.mem_idsList_cons k t1 ts1).mpr (Or.inr hm)
        have hk2 : k ∈ t1.rootId :: ts1.map RT.rootId := hk hkin
        rcases List.mem_cons.mp hk2 with he | he
        · exact absurd hm (he ▸ fun hm2 => hdisj (MindMap.rootId_mem_ids t1) hm2)
        · exact he
      rw [F1 k hsub1]
      refine T1 k (fun hm => ?_)
      have hkin : k ∈ idsList (t1 :: ts1) :=
        (MindMap.mem_idsList_cons k t1 ts1).mpr (Or.inl hm)
      have hk2 : k ∈ t1.rootId :: ts1.map RT.rootId := hk hkin
      rcases List.mem_cons.mp hk2 with he | he
      · exact he
      · exfalso
        obtain ⟨t', ht', he2⟩ := List.mem_map.mp he
        exact hdisj hm (he2 ▸ MindMap.rootId_mem_idsList ht')
    · rw [hstep, F2 k, T2 k]
    · rw [hstep]
      rw [show rootChildrenX (t1 :: ts1) jstart
          = branchX (sideSign jstart) t1 (320 * sideSign jstart)
            ++ rootChildrenX ts1 (jstart + 1) from rfl, alookup_append]
      rcases (MindMap.mem_idsList_cons k t1 ts1).mp hk with hk1 | hk1
      · have hLx : (alookup (foldCMS fuel (ts1.map RT.rootId)
            (layoutChildrenMindMeisterStyle fuel st t1.rootId)) k).map Node.x
            = alookup (branchX (sideSign jstart) t1 (320 * sideSign jstart)) k := by
          have hnotts : k ∉ idsList ts1 := fun hm => hdisj hk1 hm
          rw [F1 k (fun hm => absurd hm hnotts)]
          by_cases hkr : k = t1.rootId
          · rw [hkr, T1 t1.rootId (fun _ => rfl), hct, alookup_branchX_root]
            simp [hctx]
          · have hT3 := T3 k hk1
            rw [hctx] at hT3
            exact hT3
        cases hsome : alookup (branchX (sideSign jstart) t1
            (320 * sideSign jstart)) k with
        | some v =>
          rw [hsome] at hLx
          rw [hLx]
          rfl
        | none =>
          exfalso
          have hks := alookup_branchX_isSome (sideSign jstart)
            (320 * sideSign jstart) k t1 hk1
          rw [hsome] at hks
          cases hks
      · have hnott1 : k ∉ t1.ids := fun hm => hdisj hm hk1
        rw [F3 k hk1, alookup_branchX_none (sideSign jstart)
          (320 * sideSign jstart) k t1 hnott1, Option.none_or]

end Layout

namespace Layout

open MindMap (Node alookup RT idsList heightList repB repList)

theorem updateLayout_step (mw mh : ℚ) (st : LState) (r : ℕ) (rn : Node)
    (hfind : st.find? (fun p => p.2.level = 0) = some (r, rn)) :
    updateLayout mw mh st
      = performComprehensiveOverlapResolution (getActualNodeDimensions mw mh)
          (layoutChildrenMindMeisterStyle
            ((lset st r (fun nd => { nd with x := 0, y := 0 })).length + 1)
            (lset st r (fun nd => { nd with x := 0, y := 0 })) r) := by
  unfold updateLayout
  rw [hfind]

theorem option_x_dropY (o : Option Node) :
    (o.map dropY).map Node.x = o.map Node.x := by
  cases o <;> rfl

/-- Phase B never changes any `x` coordinate. -/
theorem phaseB_x (dims : Dimensions) (st : LState) (k : ℕ) :
    (alookup (performComprehensiveOverlapResolution dims st) k).map Node.x
      = (alookup st k).map Node.x := by
  have h := congrArg (Option.map Node.x) (phaseB_dropY dims st k)
  rwa [option_x_dropY, option_x_dropY] at h

theorem layoutRootChildren_dropY_get (ch : List Node) (j : ℕ) :
    ((layoutRootChildren ch)[j]?).map dropY
      = (ch[j]?).map (fun c => { c with x := 320 * sideSign j, y := (0 : ℚ) }) := by
  rw [layoutRootChildren_get]
  cases hc : ch[j]? with
  | none => rfl
  | some c =>
    simp only [Option.map_some']
    by_cases hj : j % 2 = 0
    · simp [dropY, sideSign, hj]
    · simp [dropY, sideSign, hj]

/-- Phase A followed by Phase B realises exactly the `x` assignment
`treeX`: the final horizontal position of every node is a function of
the tree description alone. -/
theorem updateLayout_x_spec (mw mh : ℚ) (st : LState) (r : ℕ) (rn : Node)
    (cs : List RT)
    (hfind : st.find? (fun p => p.2.level = 0) = some (r, rn))
    (halp : alookup st r = some rn)
    (hrep : repB (alookup (lset st r (fun nd => { nd with x := 0, y := 0 })))
        none 0 (RT.node r cs) = true)
    (hnd : (RT.node r cs).ids.Nodup)
    (hfuel : (RT.node r cs).height ≤ st.length + 1) :
    ∀ k, k ∈ (RT.node r cs).ids →
      (alookup (updateLayout mw mh st) k).map Node.x
        = alookup (treeX (RT.node r cs)) k := by
  intro k hk
  rw [updateLayout_step mw mh st r rn hfind]
  set st1 := lset st r (fun nd => { nd with x := 0, y := 0 }) with hst1
  rw [phaseB_x]
  have halp1 : alookup st1 r = some { rn with x := 0, y := 0 } := by
    rw [hst1, alookup_lset, if_pos rfl, halp]
    rfl
  rw [MindMap.repB_node_iff] at hrep
  obtain ⟨n0, hn0, hn0id, hn0lv, hn0par, hn0ch, hrepcs⟩ := hrep
  rw [halp1] at hn0
  injection hn0 with hn0
  have hn0x : n0.x = 0 := by rw [← hn0]
  have halp10 : alookup st1 r = some n0 := by rw [halp1, hn0]
  have hndc := hnd
  dsimp only [RT.ids] at hndc
  rw [List.nodup_cons] at hndc
  obtain ⟨hrnot, hndcs⟩ := hndc
  have hlen1 : st1.length = st.length := List.length_map _ _
  rw [layoutCMS_step st1.length st1 r n0 halp10]
  obtain ⟨CH1, CH2, CH3⟩ := repList_children (alookup st1) r 1 cs hrepcs
  cases cs with
  | nil =>
    rw [hn0ch]
    show (alookup st1 k).map Node.x = alookup (treeX (RT.node r [])) k
    have hk2 : k = r := by
      rcases (MindMap.mem_ids_node k r []).mp hk with h1 | h1
      · exact h1
      · exact absurd h1 (List.not_mem_nil k)
    subst hk2
    rw [halp10]
    have hxr : alookup (treeX (RT.node k [])) k = some 0 := by
      dsimp only [treeX, alookup]
      rw [if_pos rfl]
    rw [hxr]
    simp [hn0x]
  | cons t1 ts1 =>
    rw [hn0ch]
    set children := ((t1 :: ts1).map RT.rootId).filterMap (alookup st1) with hchdef
    have hchne : children.isEmpty = false := by
      cases hc : children with
      | nil =>
        rw [hc] at CH1
        exact absurd CH1.symm (by simp)
      | cons a as => rfl
    rw [if_neg (by rw [hchne]; exact Bool.false_ne_true), if_pos hn0lv]
    set placed := layoutRootChildren children with hpldef
    have hplen : placed.length = children.length := layoutRootChildren_length children
    have hpget : ∀ j : ℕ, (placed[j]?).map dropY
        = (children[j]?).map
            (fun c => { c with x := 320 * sideSign j, y := (0 : ℚ) }) :=
      fun j => layoutRootChildren_dropY_get children j
    obtain ⟨PF1, PF2, PF3⟩ := placed_facts st1 r 1 (t1 :: ts1) children placed
      (fun j => 320 * sideSign j) hrepcs hchdef hplen hpget
    have hpnodup : (placed.map (fun c => c.id)).Nodup := by
      rw [PF1]
      exact roots_nodup _ hndcs
    set st2 := writeBack st1 placed with hst2
    have W1 : ∀ q, q ∉ (t1 :: ts1).map RT.rootId → alookup st2 q = alookup st1 q :=
      fun q hq => writeBack_alookup_notmem placed st1 q (by rwa [PF1])
    have W2 : ∀ q, (alookup st2 q).map shapeOf = (alookup st1 q).map shapeOf :=
      writeBack_shape placed st1 hpnodup PF2
    have W3 : ∀ j : ℕ, ∀ t' : RT, (t1 :: ts1)[j]? = some t' →
        ∃ ct, alookup st2 t'.rootId = some ct ∧ ct.x = 320 * sideSign (0 + j) := by
      intro j t' hj
      obtain ⟨pc, hpc, hpcid, hpcx⟩ := PF3 j t' hj
      refine ⟨pc, ?_, by rw [Nat.zero_add]; exact hpcx⟩
      rw [← hpcid, hst2,
        writeBack_alookup_mem placed st1 pc hpnodup (List.getElem?_mem hpc)]
      have hs := PF2 pc (List.getElem?_mem hpc)
      cases hstq : alookup st1 pc.id with
      | none => rw [hstq] at hs; cases hs
      | some v => rfl
    rw [foldCMS_eq_foldl, PF1]
    have hrepcs2 : repList (alookup st2) r 1 (t1 :: ts1) = true := by
      rw [repList_congr_shape (alookup st2) (alookup st1) r 1 (t1 :: ts1) W2]
      exact hrepcs
    have hroots_sub : ∀ q, q ∈ (t1 :: ts1).map RT.rootId →
        q ∈ idsList (t1 :: ts1) := by
      intro q hq
      obtain ⟨t', ht', hq2⟩ := List.mem_map.mp hq
      exact hq2 ▸ MindMap.rootId_mem_idsList ht'
    have hrnotid : r ∉ (t1 :: ts1).map RT.rootId :=
      fun hm => hrnot (hroots_sub r hm)
    have hrn2 : alookup st2 r = some n0 := by
      rw [W1 r hrnotid]
      exact halp10
    have hfuel2 : heightList (t1 :: ts1) ≤ st1.length := by
      have hhh : RT.height (RT.node r (t1 :: ts1))
          = 1 + heightList (t1 :: ts1) := rfl
      rw [hhh] at hfuel
      rw [hlen1]
      omega
    obtain ⟨F1, F2, F3⟩ := rootA_forest (t1 :: ts1) 0 st1.length st2 r n0
      hrepcs2 hrn2 hn0x W3 hndcs hrnot hfuel2
    rcases (MindMap.mem_ids_node k r (t1 :: ts1)).mp hk with hk1 | hk1
    · subst hk1
      rw [F1 k (fun hm => absurd hm hrnot), W1 k hrnotid, halp10]
      have hxr : alookup (treeX (RT.node k (t1 :: ts1))) k = some 0 := by
        dsimp only [treeX, alookup]
        rw [if_pos rfl]
      rw [hxr]
      simp [hn0x]
    · have hkr : ¬ r = k := fun he => hrnot (he ▸ hk1)
      rw [F3 k hk1]
      show alookup (rootChildrenX (t1 :: ts1) 0) k
        = alookup (treeX (RT.node r (t1 :: ts1))) k
      dsimp only [treeX, alookup]
      rw [if_neg hkr]

end Layout

namespace Layout

open MindMap (Node alookup RT idsList heightList repB repList)

theorem ids_subset_idsList : ∀ (ts : List RT) (t' : RT), t' ∈ ts →
    ∀ k, k ∈ t'.ids → k ∈ idsList ts
  | t1 :: ts1, t', h, k, hk => by
    rcases List.mem_cons.mp h with he | he
    · exact (MindMap.mem_idsList_cons k t1 ts1).mpr (Or.inl (he ▸ hk))
    · exact (MindMap.mem_idsList_cons k t1 ts1).mpr
        (Or.inr (ids_subset_idsList ts1 t' he k hk))

theorem rootChildrenX_get : ∀ (cs : List RT) (jstart j : ℕ) (t' : RT),
    cs[j]? = some t' → (idsList cs).Nodup → ∀ k, k ∈ t'.ids →
    alookup (rootChildrenX cs jstart) k
      = alookup (branchX (sideSign (jstart + j)) t'
          (320 * sideSign (jstart + j))) k
  | [], _, j, t', hj, _, k, hk => by simp at hj
  | t1 :: ts1, jstart, 0, t', hj, hnd, k, hk => by
    rw [List.getElem?_cons_zero] at hj
    injection hj with hj
    subst hj
    rw [show rootChildrenX (t1 :: ts1) jstart
        = branchX (sideSign jstart) t1 (320 * sideSign jstart)
          ++ rootChildrenX ts1 (jstart + 1) from rfl, alookup_append]
    simp only [Nat.add_zero]
    cases hsome : alookup (branchX (sideSign jstart) t1
        (320 * sideSign jstart)) k with
    | some v => rfl
    | none =>
      exfalso
      have hks := alookup_branchX_isSome (sideSign jstart)
        (320 * sideSign jstart) k t1 hk
      rw [hsome] at hks
      cases hks
  | t1 :: ts1, jstart, j + 1, t', hj, hnd, k, hk => by
    rw [List.getElem?_cons_succ] at hj
    rw [show idsList (t1 :: ts1) = t1.ids ++ idsList ts1 from rfl,
      List.nodup_append] at hnd
    obtain ⟨hnd1, hnd2, hdisj⟩ := hnd
    have hkts : k ∈ idsList ts1 :=
      ids_subset_idsList ts1 t' (List.getElem?_mem hj) k hk
    have hknott1 : k ∉ t1.ids := fun hm => hdisj hm hkts
    rw [show rootChildrenX (t1 :: ts1) jstart
        = branchX (sideSign jstart) t1 (320 * sideSign jstart)
          ++ rootChildrenX ts1 (jstart + 1) from rfl, alookup_append,
      alookup_branchX_none _ _ _ t1 hknott1, Option.none_or]
    have hrec := rootChildrenX_get ts1 (jstart + 1) j t' hj hnd2 k hk
    rwa [show jstart + 1 + j = jstart + (j + 1) from by omega] at hrec

/-- C5: branch-side stability.  For a well-formed tree (root `r` found
by the root scan, subtree forest `cs` represented in the store, distinct
ids, enough nodes for the recursion), every node of the `j`-th root
child's subtree ends the full pipeline at `x ≥ 320` when `j` is even
(right side) and `x ≤ -320` when `j` is odd (left side) — descendants
never flip to the other side of the root; moreover Phase B (overlap
resolution) never changes any node's `x` at all. -/
theorem branch_side_stability (mw mh : ℚ) (st : LState) (r : ℕ) (rn : Node)
    (cs : List RT)
    (hfind : st.find? (fun p => p.2.level = 0) = some (r, rn))
    (halp : alookup st r = some rn)
    (hrep : repB (alookup (lset st r (fun nd => { nd with x := 0, y := 0 })))
        none 0 (RT.node r cs) = true)
    (hnd : (RT.node r cs).ids.Nodup)
    (hfuel : (RT.node r cs).height ≤ st.length + 1) :
    (∀ j : ℕ, ∀ t' : RT, cs[j]? = some t' → ∀ k, k ∈ t'.ids →
      ∃ xv : ℚ, (alookup (updateLayout mw mh st) k).map Node.x = some xv
        ∧ (if j % 2 = 0 then 320 ≤ xv else xv ≤ -320))
    ∧ (∀ (dims : Dimensions) (st' : LState) (k : ℕ),
        (alookup (performComprehensiveOverlapResolution dims st') k).map Node.x
          = (alookup st' k).map Node.x) := by
  refine ⟨?_, phaseB_x⟩
  intro j t' hj k hk
  have hkts : k ∈ idsList cs :=
    ids_subset_idsList cs t' (List.getElem?_mem hj) k hk
  have hx := updateLayout_x_spec mw mh st r rn cs hfind halp hrep hnd hfuel k
    ((MindMap.mem_ids_node k r cs).mpr (Or.inr hkts))
  have hndc := hnd
  dsimp only [RT.ids] at hndc
  rw [List.nodup_cons] at hndc
  obtain ⟨hrnot, hndcs⟩ := hndc
  have hkr : ¬ r = k := fun he => hrnot (he ▸ hkts)
  have htx : alookup (treeX (RT.node r cs)) k
      = alookup (rootChildrenX cs 0) k := by
    dsimp only [treeX, alookup]
    rw [if_neg hkr]
  rw [htx, rootChildrenX_get cs 0 j t' hj hndcs k hk, Nat.zero_add] at hx
  have hks := alookup_branchX_isSome (sideSign j) (320 * sideSign j) k t' hk
  cases hsome : alookup (branchX (sideSign j) t' (320 * sideSign j)) k with
  | none =>
    rw [hsome] at hks
    cases hks
  | some xv =>
    rw [hsome] at hx
    refine ⟨xv, hx, ?_⟩
    have hb := branchX_bound (sideSign j) (320 * sideSign j) k xv
      (sideSign_sq j) t' hsome
      (by rw [show sideSign j * (320 * sideSign j)
            = 320 * (sideSign j * sideSign j) from by ring, sideSign_sq j,
          mul_one])
    by_cases hj2 : j % 2 = 0
    · rw [if_pos hj2]
      have hss : sideSign j = 1 := by unfold sideSign; rw [if_pos hj2]
      rw [hss, one_mul] at hb
      exact hb
    · rw [if_neg hj2]
      have hss : sideSign j = -1 := by unfold sideSign; rw [if_neg hj2]
      rw [hss] at hb
      linarith

def wT5cs : List RT := [RT.node 2 [RT.node 4 []], RT.node 3 []]

theorem branch_side_stability_witness :
    ∃ xv : ℚ, (alookup (updateLayout 0 0 scen4) 4).map Node.x = some xv
      ∧ (if 0 % 2 = 0 then 320 ≤ xv else xv ≤ -320) :=
  (branch_side_stability 0 0 scen4 1 (mkScenNode 1 0 none [2, 3]) wT5cs
    (by decide) (by decide) (by decide) (by decide) (by decide)).1
    0 (RT.node 2 [RT.node 4 []]) rfl 4 (by decide)

end Layout

namespace Layout

open MindMap (Node alookup RT repB)

/-- C6 (amended): what determinism the layout does provide.  Horizontal
positions are a pure function of the tree description: for a well-formed
store the final `x` of every node equals the `treeX` assignment computed
from the shape alone, independent of the coordinates the nodes carried
into the run.  (Vertical positions are not shape-determined — see the
accompanying counterexample — because `avoidIntersections` reads sibling
coordinates stored before the pass.) -/
theorem updateLayout_x_deterministic (mw mh : ℚ) (st : LState) (r : ℕ)
    (rn : Node) (cs : List RT)
    (hfind : st.find? (fun p => p.2.level = 0) = some (r, rn))
    (halp : alookup st r = some rn)
    (hrep : repB (alookup (lset st r (fun nd => { nd with x := 0, y := 0 })))
        none 0 (RT.node r cs) = true)
    (hnd : (RT.node r cs).ids.Nodup)
    (hfuel : (RT.node r cs).height ≤ st.length + 1) :
    ∀ k, k ∈ (RT.node r cs).ids →
      (alookup (updateLayout mw mh st) k).map Node.x
        = alookup (treeX (RT.node r cs)) k :=
  updateLayout_x_spec mw mh st r rn cs hfind halp hrep hnd hfuel

theorem updateLayout_x_deterministic_witness :
    (alookup (updateLayout 0 0 scen4) 4).map MindMap.Node.x
      = alookup (treeX (RT.node 1 wT5cs)) 4 :=
  updateLayout_x_deterministic 0 0 scen4 1 (mkScenNode 1 0 none [2, 3]) wT5cs
    (by decide) (by decide) (by decide) (by decide) (by decide) 4 (by decide)

end Layout
